import Mathlib

/-!
Verification of the search-ads-cli core: a shallow embedding of the
name-resolution registry (src/command_tree.rs), the dynamic wire codec
boundary (src/client.rs), the request shapers (src/gaql.rs, src/mutate.rs)
and the invocation flow of src/main.rs, together with theorems about the
properties the specification states for them.

Strings from the descriptor pool (service, method and type names) are
protobuf identifiers, which are ASCII; the ASCII character helpers below
mirror Rust's `char::is_ascii_alphanumeric`, `char::is_ascii_digit` and
`char::to_ascii_lowercase` exactly, and `is_uppercase` agrees with the
ASCII test on such strings.
-/

namespace SearchAds

/-! ## ASCII character helpers -/

/-- Rust `char::is_ascii_alphanumeric`: `'0'..='9' | 'A'..='Z' | 'a'..='z'`. -/
def isAsciiAlnum (c : Char) : Bool :=
  (48 ≤ c.toNat && c.toNat ≤ 57) || (65 ≤ c.toNat && c.toNat ≤ 90) ||
    (97 ≤ c.toNat && c.toNat ≤ 122)

/-- Rust `char::is_ascii_digit`: `'0'..='9'`. -/
def isAsciiDigitC (c : Char) : Bool :=
  48 ≤ c.toNat && c.toNat ≤ 57

/-- ASCII uppercase test, `'A'..='Z'`. -/
def isAsciiUpper (c : Char) : Bool :=
  65 ≤ c.toNat && c.toNat ≤ 90

/-- Rust `char::to_ascii_lowercase`: add 32 to an ASCII uppercase letter. -/
def toAsciiLower (c : Char) : Char :=
  if isAsciiUpper c then Char.ofNat (c.toNat + 32) else c

/-- Rust `str::starts_with` on character lists (first argument: the string,
second: the pattern). -/
def listStartsWith : List Char → List Char → Bool
  | _, [] => true
  | [], _ :: _ => false
  | a :: as, b :: bs => a == b && listStartsWith as bs

/-- Rust `str::contains(substring)` on character lists. -/
def listContainsSeg : List Char → List Char → Bool
  | hay, needle =>
    listStartsWith hay needle ||
      match hay with
      | [] => false
      | _ :: t => listContainsSeg t needle

def strStartsWith (s pat : String) : Bool :=
  listStartsWith s.data pat.data

def strContainsSeg (s sub : String) : Bool :=
  listContainsSeg s.data sub.data

/-- Rust `str::split('.')`: the pieces between dots, empties kept. -/
def splitDot : List Char → List (List Char)
  | [] => [[]]
  | c :: rest =>
    if c = '.' then [] :: splitDot rest
    else
      match splitDot rest with
      | [] => [[c]]
      | h :: t => (c :: h) :: t

/-- Byte-lexicographic string order, Rust's `String::cmp` rendered as `≤`:
UTF-8 byte order coincides with code-point lexicographic order. -/
def charListLe : List Char → List Char → Bool
  | [], _ => true
  | _ :: _, [] => false
  | a :: as, b :: bs => a < b || (a == b && charListLe as bs)

def strLe (a b : String) : Bool :=
  charListLe a.data b.data

/-! ## Name normalization (src/command_tree.rs lines 136-144 and 192-207) -/

/-- Body of `normalize`: keep ASCII alphanumeric characters, lowercased. -/
def normalizeChars (cs : List Char) : List Char :=
  cs.filterMap fun ch => if isAsciiAlnum ch then some (toAsciiLower ch) else none

/-- `normalize` (src/command_tree.rs lines 136-144): strip everything but
ASCII alphanumerics and lowercase the rest. -/
def normalize (value : String) : String :=
  ⟨normalizeChars value.data⟩

/-- Body of `to_kebab` with the running character index `i` (the source
tracks it through `enumerate`). -/
def toKebabChars : List Char → Nat → List Char
  | [], _ => []
  | ch :: rest, i =>
    (if isAsciiUpper ch then (if 0 < i then ['-'] else []) ++ [toAsciiLower ch]
     else if ch = '_' then ['-']
     else [ch]) ++ toKebabChars rest (i + 1)

/-- `to_kebab` (src/command_tree.rs lines 192-207): hyphenate at uppercase
letters (except a leading one), lowercase them, and turn `_` into `-`. -/
def to_kebab (value : String) : String :=
  ⟨toKebabChars value.data 0⟩

/-- `names_match` (src/command_tree.rs lines 132-134). -/
def names_match (candidate input : String) : Bool :=
  normalize candidate == normalize input

/-! ## Descriptor-pool model (prost_reflect descriptors as the source uses
them: a pool is its list of services in pool order; a service carries its
declared name, fully-qualified name and methods; a method carries its name,
referenced type names and the two streaming flags). -/

structure MethodDescriptor where
  name : String
  input_type : String
  output_type : String
  client_streaming : Bool
  server_streaming : Bool
deriving DecidableEq, Repr

structure ServiceDescriptor where
  name : String
  full_name : String
  methods : List MethodDescriptor
deriving DecidableEq, Repr

abbrev DescriptorPool := List ServiceDescriptor

/-- Error taxonomy of the spec's §7; the source reports all of these as
`anyhow` errors, distinguished by their message. -/
inductive CliError where
  | resolution (msg : String)
  | input (msg : String)
  | unsupported (msg : String)
  | transport (code : Nat) (msg : String)
deriving DecidableEq, Repr

/-- `is_google_ads_service` (src/command_tree.rs lines 146-148). -/
def is_google_ads_service (service : ServiceDescriptor) : Bool :=
  strStartsWith service.full_name "google.ads.googleads." &&
    strContainsSeg service.full_name ".services."

/-- `service_matches` (src/command_tree.rs lines 126-130). -/
def service_matches (service : ServiceDescriptor) (input : String) : Bool :=
  names_match service.name input || names_match (to_kebab service.name) input ||
    names_match service.full_name input

/-- `find_service` (src/command_tree.rs lines 120-124): first visible
service matching the input, else a resolution error naming the input. -/
def find_service (pool : DescriptorPool) (service : String) :
    Except CliError ServiceDescriptor :=
  match pool.find? (fun s => is_google_ads_service s && service_matches s service) with
  | some s => .ok s
  | none => .error (.resolution ("unknown service " ++ service))

/-- `find_method` (src/command_tree.rs lines 111-118). -/
def find_method (pool : DescriptorPool) (service method : String) :
    Except CliError MethodDescriptor :=
  match find_service pool service with
  | .error e => .error e
  | .ok target_service =>
    match target_service.methods.find?
        (fun m => names_match m.name method || names_match (to_kebab m.name) method) with
    | some m => .ok m
    | none => .error (.resolution ("unknown method " ++ service ++ " " ++ method))

/-! ## Command tree (src/command_tree.rs lines 5-27 and 55-90) -/

structure MethodDef where
  name : String
  full_name : String
  input_type : String
  output_type : String
  client_streaming : Bool
  server_streaming : Bool
deriving DecidableEq, Repr

structure ServiceDef where
  name : String
  full_name : String
  methods : List MethodDef
deriving DecidableEq, Repr

structure CommandTree where
  version : Nat
  api_version : String
  services : List ServiceDef
deriving DecidableEq, Repr

/-- Version segment test (src/command_tree.rs line 156): the part starts
with `'v'`, is longer than one character, and the rest is ASCII digits. -/
def isVersionSeg (part : List Char) : Bool :=
  match part with
  | [] => false
  | c :: rest => c == 'v' && !rest.isEmpty && rest.all isAsciiDigitC

/-- `detect_api_version` (src/command_tree.rs lines 150-162): first
qualifying dot-separated segment of a visible service's full name, scanning
services in pool order. -/
def detect_api_version (pool : DescriptorPool) : Option String :=
  pool.findSome? fun service =>
    if is_google_ads_service service then
      ((splitDot service.full_name.data).find? isVersionSeg).map fun part => ⟨part⟩
    else none

/-- Ascending-by-name ordering used by the `sort_by(|a, b| a.name.cmp(&b.name))`
calls; `insertionSort` is a stable sort, as Rust's `sort_by` is. -/
def methodLe (a b : MethodDef) : Prop :=
  strLe a.name b.name = true

def serviceLe (a b : ServiceDef) : Prop :=
  strLe a.name b.name = true

instance : DecidableRel methodLe := fun a b => by unfold methodLe; infer_instance

instance : DecidableRel serviceLe := fun a b => by unfold serviceLe; infer_instance

/-- `build_tree` (src/command_tree.rs lines 55-90): keep visible services,
kebab their names and their methods' names, sort methods and services
ascending by that name, and attach the detected api version. -/
def build_tree (pool : DescriptorPool) : CommandTree :=
  let services : List ServiceDef :=
    (pool.filter is_google_ads_service).map fun service =>
      { name := to_kebab service.name
        full_name := service.full_name
        methods := List.insertionSort methodLe
          (service.methods.map fun m =>
            { name := to_kebab m.name
              full_name := service.full_name ++ "/" ++ m.name
              input_type := m.input_type
              output_type := m.output_type
              client_streaming := m.client_streaming
              server_streaming := m.server_streaming }) }
  { version := 1
    api_version := (detect_api_version pool).getD "unknown"
    services := List.insertionSort serviceLe services }

/-! ## Dynamic wire codec (src/client.rs lines 117-173)

`DynamicEncoder::encode` and `DynamicDecoder::decode` delegate to
`prost_reflect::DynamicMessage::{encode, decode}`, the protobuf binary wire
format bound to a runtime message descriptor. The embedding below renders
that wire format for the field kinds the round-trip claim names: varint
scalars (`uint64` standing for the varint scalar kinds, plus `bool`),
length-delimited bytes (the wire form of `string`/`bytes`), enums (varint),
nested messages (length-delimited) and repeated fields (scalars packed, as
proto3 encodes them by default; bytes and messages as repeated records).

Descriptors are the mutual inductive `PKind`/`PFields` (a message type is
its ordered field list: number, repeated flag, kind); a `DynamicMessage`
value is `PSlots`, one slot per descriptor field in descriptor order — a
message field always carries a value, with proto3 defaults standing for
unset fields, matching field-value equality (`get_field` yields the default
for an unset field). Encoding follows proto3 presence: a singular scalar at
its default and an empty repeated field emit nothing; a message field, once
present in the value, is emitted even when empty. Decoding starts from the
all-defaults value and applies records left to right; records for unknown
field numbers are skipped (the model drops them — the round-trip path never
produces any). Duplicate occurrences of a singular field replace the slot
(the merge semantics of duplicates never arise on encoder output, whose
fields appear at most once). -/

mutual

inductive PKind where
  | kint
  | kbool
  | kbytes
  | kenum
  | kmsg (fields : PFields)

inductive PFields where
  | nil
  | cons (num : Nat) (rep : Bool) (kind : PKind) (rest : PFields)

end

mutual

inductive PVal where
  | vint (n : Nat)
  | vbool (b : Bool)
  | vbytes (bs : List Nat)
  | venum (n : Nat)
  | vmsg (fields : PSlots)

inductive PSlot where
  | one (v : PVal)
  | many (vs : PValList)

inductive PValList where
  | nil
  | cons (v : PVal) (rest : PValList)

inductive PSlots where
  | nil
  | cons (s : PSlot) (rest : PSlots)

end

def pvLen : PValList → Nat
  | .nil => 0
  | .cons _ rest => pvLen rest + 1

def pvAppend : PValList → PValList → PValList
  | .nil, ws => ws
  | .cons v vs, ws => .cons v (pvAppend vs ws)

def pvSnoc (vs : PValList) (v : PVal) : PValList :=
  pvAppend vs (.cons v .nil)

def pfLen : PFields → Nat
  | .nil => 0
  | .cons _ _ _ rest => pfLen rest + 1

def pfAppend : PFields → PFields → PFields
  | .nil, gs => gs
  | .cons num rep k fs, gs => .cons num rep k (pfAppend fs gs)

def psLen : PSlots → Nat
  | .nil => 0
  | .cons _ rest => psLen rest + 1

def psAppend : PSlots → PSlots → PSlots
  | .nil, ts => ts
  | .cons s ss, ts => .cons s (psAppend ss ts)

def fieldNums : PFields → List Nat
  | .nil => []
  | .cons num _ _ rest => num :: fieldNums rest

/-- Base-128 varint, least-significant group first. -/
def encodeVarint (n : Nat) : List Nat :=
  if h : n < 128 then [n] else (n % 128 + 128) :: encodeVarint (n / 128)
termination_by n
decreasing_by exact Nat.div_lt_self (by omega) (by omega)

def decodeVarint : List Nat → Option (Nat × List Nat)
  | [] => none
  | b :: rest =>
    if b < 128 then some (b, rest)
    else
      match decodeVarint rest with
      | some (n, r) => some (b % 128 + 128 * n, r)
      | none => none

/-- The varint payload of one packed scalar element. -/
def scalarNat : PKind → PVal → Nat
  | .kint, .vint n => n
  | .kbool, .vbool b => if b then 1 else 0
  | .kenum, .venum n => n
  | _, _ => 0

def packNats : PKind → PValList → List Nat
  | _, .nil => []
  | k, .cons v vs => scalarNat k v :: packNats k vs

def encodeNats : List Nat → List Nat
  | [] => []
  | n :: ns => encodeVarint n ++ encodeNats ns

/-- Reading a varint scalar back into a value of the field's kind (`bool`
decodes any non-zero varint as `true`, as prost does). -/
def interpScalar : PKind → Nat → PVal
  | .kint, n => .vint n
  | .kbool, n => .vbool (n != 0)
  | .kenum, n => .venum n
  | _, n => .vint n

def natsToVals : PKind → List Nat → PValList
  | _, [] => .nil
  | k, n :: ns => .cons (interpScalar k n) (natsToVals k ns)

def pvIsNil : PValList → Bool
  | .nil => true
  | .cons _ _ => false

mutual

def defaultVal : PKind → PVal
  | .kint => .vint 0
  | .kbool => .vbool false
  | .kbytes => .vbytes []
  | .kenum => .venum 0
  | .kmsg fs => .vmsg (defaultSlots fs)

def defaultSlot (rep : Bool) (k : PKind) : PSlot :=
  if rep then .many .nil else .one (defaultVal k)

def defaultSlots : PFields → PSlots
  | .nil => .nil
  | .cons _ rep k rest => .cons (defaultSlot rep k) (defaultSlots rest)

end

mutual

def validVal : PKind → PVal → Bool
  | .kint, .vint n => decide (n < 2 ^ 64)
  | .kbool, .vbool _ => true
  | .kbytes, .vbytes bs => bs.all fun b => decide (b < 256)
  | .kenum, .venum n => decide (n < 2 ^ 31)
  | .kmsg fs, .vmsg vs => validSlots fs vs
  | _, _ => false

def validList : PKind → PValList → Bool
  | _, .nil => true
  | k, .cons v rest => validVal k v && validList k rest

def validSlot : Bool → PKind → PSlot → Bool
  | false, k, .one v => validVal k v
  | true, k, .many vs => validList k vs
  | _, _, _ => false

def validSlots : PFields → PSlots → Bool
  | .nil, .nil => true
  | .cons _ rep k fs, .cons s ss => validSlot rep k s && validSlots fs ss
  | _, _ => false

end

mutual

/-- Descriptor well-formedness: positive in-range field numbers, pairwise
distinct within each message, recursively for nested message types. -/
def wfKind : PKind → Bool
  | .kmsg fs => wfFields fs
  | _ => true

def wfFields : PFields → Bool
  | .nil => true
  | .cons num _ k rest =>
    decide (1 ≤ num) && decide (num < 2 ^ 29) && !(fieldNums rest).contains num &&
      wfKind k && wfFields rest

end

mutual

def encodeMsg : PFields → PSlots → List Nat
  | .nil, _ => []
  | .cons _ _ _ _, .nil => []
  | .cons num rep k fs, .cons s ss => encodeField num rep k s ++ encodeMsg fs ss

def encodeField (num : Nat) (rep : Bool) (k : PKind) (s : PSlot) : List Nat :=
  match rep, k, s with
  | false, .kint, .one (.vint n) =>
    if n = 0 then [] else encodeVarint (num * 8) ++ encodeVarint n
  | false, .kbool, .one (.vbool b) =>
    if b then encodeVarint (num * 8) ++ encodeVarint 1 else []
  | false, .kenum, .one (.venum n) =>
    if n = 0 then [] else encodeVarint (num * 8) ++ encodeVarint n
  | false, .kbytes, .one (.vbytes bs) =>
    if bs.isEmpty then []
    else encodeVarint (num * 8 + 2) ++ encodeVarint bs.length ++ bs
  | false, .kmsg fs, .one (.vmsg vs) =>
    encodeVarint (num * 8 + 2) ++ encodeVarint (encodeMsg fs vs).length ++ encodeMsg fs vs
  | true, .kint, .many vs =>
    if pvIsNil vs then []
    else encodeVarint (num * 8 + 2) ++
      encodeVarint (encodeNats (packNats .kint vs)).length ++ encodeNats (packNats .kint vs)
  | true, .kbool, .many vs =>
    if pvIsNil vs then []
    else encodeVarint (num * 8 + 2) ++
      encodeVarint (encodeNats (packNats .kbool vs)).length ++ encodeNats (packNats .kbool vs)
  | true, .kenum, .many vs =>
    if pvIsNil vs then []
    else encodeVarint (num * 8 + 2) ++
      encodeVarint (encodeNats (packNats .kenum vs)).length ++ encodeNats (packNats .kenum vs)
  | true, .kbytes, .many vs => encodeElems num .kbytes vs
  | true, .kmsg fs, .many vs => encodeElems num (.kmsg fs) vs
  | _, _, _ => []

def encodeElems (num : Nat) (k : PKind) : PValList → List Nat
  | .nil => []
  | .cons v vs => encodeElem num k v ++ encodeElems num k vs

def encodeElem (num : Nat) (k : PKind) (v : PVal) : List Nat :=
  match k, v with
  | .kbytes, .vbytes bs => encodeVarint (num * 8 + 2) ++ encodeVarint bs.length ++ bs
  | .kmsg fs, .vmsg vs =>
    encodeVarint (num * 8 + 2) ++ encodeVarint (encodeMsg fs vs).length ++ encodeMsg fs vs
  | _, _ => []

end

def decodeVarintsAux : Nat → List Nat → Option (List Nat)
  | _, [] => some []
  | 0, _ :: _ => none
  | it + 1, b :: rest =>
    match decodeVarint (b :: rest) with
    | some (n, r) =>
      match decodeVarintsAux it r with
      | some ns => some (n :: ns)
      | none => none
    | none => none

/-- Parse a packed payload as consecutive varints until it is exhausted
(the buffer length bounds the number of varints it can hold). -/
def decodeVarints (buf : List Nat) : Option (List Nat) :=
  decodeVarintsAux buf.length buf

/-- Skip the payload of a record whose field number the descriptor does not
declare, according to its wire type. -/
def skipField (wt : Nat) (buf : List Nat) : Option (List Nat) :=
  if wt = 0 then (decodeVarint buf).map Prod.snd
  else if wt = 1 then if 8 ≤ buf.length then some (buf.drop 8) else none
  else if wt = 2 then
    match decodeVarint buf with
    | some (len, r) => if len ≤ r.length then some (r.drop len) else none
    | none => none
  else if wt = 5 then if 4 ≤ buf.length then some (buf.drop 4) else none
  else none

def appendOne : PSlot → PVal → PSlot
  | .many vs, v => .many (pvSnoc vs v)
  | s, _ => s

def appendPacked : PSlot → PValList → PSlot
  | .many vs, ws => .many (pvAppend vs ws)
  | s, _ => s

mutual

/-- Nesting depth of a descriptor, the recursion budget the decoder needs. -/
def kindDepth : PKind → Nat
  | .kmsg fs => msgDepth fs + 1
  | _ => 0

def msgDepth : PFields → Nat
  | .nil => 0
  | .cons _ _ k rest => max (kindDepth k) (msgDepth rest)

end

mutual

/-- Record loop of a message decode: read a tag varint, dispatch on the
field number and wire type, update the slot, continue on the rest. `it`
bounds the number of records (each consumes at least the tag byte), `depth`
bounds message nesting. -/
def decodeLoop (depth it : Nat) (fs : PFields) (st : PSlots) (buf : List Nat) :
    Except String PSlots :=
  match buf with
  | [] => .ok st
  | _ :: _ =>
    match it with
    | 0 => .error "record budget exhausted"
    | it' + 1 =>
      match decodeVarint buf with
      | none => .error "truncated tag"
      | some (tag, r1) =>
        match decodeAt depth fs st (tag / 8) (tag % 8) r1 with
        | .error e => .error e
        | .ok (st', rest) => decodeLoop depth it' fs st' rest

/-- Walk the fields and their slots in parallel; at the first field whose
number matches, decode the payload into that slot; when no field matches,
skip the record as an unknown field. -/
def decodeAt (depth : Nat) (fs : PFields) (ss : PSlots) (num wt : Nat)
    (buf : List Nat) : Except String (PSlots × List Nat) :=
  match fs, ss with
  | .nil, ssRest =>
    match skipField wt buf with
    | some rest => .ok (ssRest, rest)
    | none => .error "unknown field skip failed"
  | .cons _ _ _ _, .nil => .error "slots misaligned with descriptor"
  | .cons n rep k fs', .cons s ss' =>
    if n = num then
      match decodePayload depth rep k s wt buf with
      | .ok (s', rest) => .ok (.cons s' ss', rest)
      | .error e => .error e
    else
      match decodeAt depth fs' ss' num wt buf with
      | .ok (ss'', rest) => .ok (.cons s ss'', rest)
      | .error e => .error e

/-- Decode one record's payload against the matched field, given its
current slot (repeated fields accumulate; singular fields are replaced). -/
def decodePayload (depth : Nat) (rep : Bool) (k : PKind) (s : PSlot) (wt : Nat)
    (buf : List Nat) : Except String (PSlot × List Nat) :=
  match rep, k with
  | false, .kint =>
    if wt = 0 then
      match decodeVarint buf with
      | some (n, rest) => .ok (.one (.vint n), rest)
      | none => .error "truncated varint"
    else .error "wire type mismatch"
  | false, .kbool =>
    if wt = 0 then
      match decodeVarint buf with
      | some (n, rest) => .ok (.one (.vbool (n != 0)), rest)
      | none => .error "truncated varint"
    else .error "wire type mismatch"
  | false, .kenum =>
    if wt = 0 then
      match decodeVarint buf with
      | some (n, rest) => .ok (.one (.venum n), rest)
      | none => .error "truncated varint"
    else .error "wire type mismatch"
  | false, .kbytes =>
    if wt = 2 then
      match decodeVarint buf with
      | some (len, rest) =>
        if len ≤ rest.length then .ok (.one (.vbytes (rest.take len)), rest.drop len)
        else .error "length past end of buffer"
      | none => .error "truncated varint"
    else .error "wire type mismatch"
  | false, .kmsg fs' =>
    if wt = 2 then
      match decodeVarint buf with
      | some (len, rest) =>
        if len ≤ rest.length then
          match depth with
          | 0 => .error "nesting budget exhausted"
          | depth' + 1 =>
            match decodeLoop depth' ((rest.take len).length + 1) fs'
                (defaultSlots fs') (rest.take len) with
            | .ok vs => .ok (.one (.vmsg vs), rest.drop len)
            | .error e => .error e
        else .error "length past end of buffer"
      | none => .error "truncated varint"
    else .error "wire type mismatch"
  | true, .kint =>
    if wt = 2 then
      match decodeVarint buf with
      | some (len, rest) =>
        if len ≤ rest.length then
          match decodeVarints (rest.take len) with
          | some ns => .ok (appendPacked s (natsToVals .kint ns), rest.drop len)
          | none => .error "bad packed payload"
        else .error "length past end of buffer"
      | none => .error "truncated varint"
    else if wt = 0 then
      match decodeVarint buf with
      | some (n, rest) => .ok (appendOne s (interpScalar .kint n), rest)
      | none => .error "truncated varint"
    else .error "wire type mismatch"
  | true, .kbool =>
    if wt = 2 then
      match decodeVarint buf with
      | some (len, rest) =>
        if len ≤ rest.length then
          match decodeVarints (rest.take len) with
          | some ns => .ok (appendPacked s (natsToVals .kbool ns), rest.drop len)
          | none => .error "bad packed payload"
        else .error "length past end of buffer"
      | none => .error "truncated varint"
    else if wt = 0 then
      match decodeVarint buf with
      | some (n, rest) => .ok (appendOne s (interpScalar .kbool n), rest)
      | none => .error "truncated varint"
    else .error "wire type mismatch"
  | true, .kenum =>
    if wt = 2 then
      match decodeVarint buf with
      | some (len, rest) =>
        if len ≤ rest.length then
          match decodeVarints (rest.take len) with
          | some ns => .ok (appendPacked s (natsToVals .kenum ns), rest.drop len)
          | none => .error "bad packed payload"
        else .error "length past end of buffer"
      | none => .error "truncated varint"
    else if wt = 0 then
      match decodeVarint buf with
      | some (n, rest) => .ok (appendOne s (interpScalar .kenum n), rest)
      | none => .error "truncated varint"
    else .error "wire type mismatch"
  | true, .kbytes =>
    if wt = 2 then
      match decodeVarint buf with
      | some (len, rest) =>
        if len ≤ rest.length then
          .ok (appendOne s (.vbytes (rest.take len)), rest.drop len)
        else .error "length past end of buffer"
      | none => .error "truncated varint"
    else .error "wire type mismatch"
  | true, .kmsg fs' =>
    if wt = 2 then
      match decodeVarint buf with
      | some (len, rest) =>
        if len ≤ rest.length then
          match depth with
          | 0 => .error "nesting budget exhausted"
          | depth' + 1 =>
            match decodeLoop depth' ((rest.take len).length + 1) fs'
                (defaultSlots fs') (rest.take len) with
            | .ok vs => .ok (appendOne s (.vmsg vs), rest.drop len)
            | .error e => .error e
        else .error "length past end of buffer"
      | none => .error "truncated varint"
    else .error "wire type mismatch"

end

/-- One whole-buffer message decode, `DynamicMessage::decode` bound to the
descriptor `fs`: start from the all-defaults value and run the record loop.
One byte per record tag makes `buf.length + 1` records enough. -/
def decodeMessage (fs : PFields) (buf : List Nat) : Except String PSlots :=
  decodeLoop (msgDepth fs) (buf.length + 1) fs (defaultSlots fs) buf

/-- `DynamicDecoder::decode` (src/client.rs lines 160-173): an empty buffer
is "no message" (end of stream); otherwise the whole buffer is one message,
decoded against the bound output descriptor, errors wrapped as internal
decode errors. -/
def DynamicDecoder_decode (output : PFields) (src : List Nat) :
    Except String (Option PSlots) :=
  if src.length = 0 then .ok none
  else
    match decodeMessage output src with
    | .ok msg => .ok (some msg)
    | .error e => .error ("decode error: " ++ e)

/-- Number of wire records `encodeField` emits for one field (nested
records inside a message payload not counted: the record loop at one
nesting level only spends its budget on that level's records). -/
def slotRecords : Bool → PKind → PSlot → Nat
  | false, .kint, .one (.vint n) => if n = 0 then 0 else 1
  | false, .kbool, .one (.vbool b) => if b then 1 else 0
  | false, .kenum, .one (.venum n) => if n = 0 then 0 else 1
  | false, .kbytes, .one (.vbytes bs) => if bs.isEmpty then 0 else 1
  | false, .kmsg _, .one (.vmsg _) => 1
  | true, .kint, .many vs => if pvIsNil vs then 0 else 1
  | true, .kbool, .many vs => if pvIsNil vs then 0 else 1
  | true, .kenum, .many vs => if pvIsNil vs then 0 else 1
  | true, .kbytes, .many vs => pvLen vs
  | true, .kmsg _, .many vs => pvLen vs
  | _, _, _ => 0

def msgRecords : PFields → PSlots → Nat
  | .nil, _ => 0
  | .cons _ _ _ _, .nil => 0
  | .cons _ rep k fs, .cons s ss => slotRecords rep k s + msgRecords fs ss

/-- The decoder's record loop consumes the buffer segment `buf`, turning
state `st` into `st'` at the cost of `c` records, whatever follows and
whatever budget remains. -/
def DecSteps (depth : Nat) (fs : PFields) (st : PSlots) (buf : List Nat)
    (st' : PSlots) (c : Nat) : Prop :=
  ∀ it rest, decodeLoop depth (it + c) fs st (buf ++ rest) = decodeLoop depth it fs st' rest

/-- Generic JSON-shaped values (serde_json::Value as the shapers build
them). A `serde_json::Map` is modelled as the list of entries the source
inserts, in insertion order; all shaper-built maps have pairwise distinct
keys, so presence/absence of a key is faithful. -/

inductive JValue where
  | null
  | bool (b : Bool)
  | num (n : Int)
  | str (s : String)
  | arr (vs : List JValue)
  | obj (fields : List (String × JValue))

/-- Keys of an object value. -/
def jKeys : JValue → List String
  | .obj fields => fields.map Prod.fst
  | _ => []

/-! ## Query-search shaper (src/gaql.rs lines 9-29 and 92-116) -/

structure SearchArgs where
  customer_id : String
  query : String
  use_search : Bool
  page_size : Option Int
  page_token : Option String
  validate_only : Bool
  summary_row_setting : Option String
  return_total_results_count : Bool
  raw : Bool
  jsonl : Bool

/-- `build_search_request` (src/gaql.rs lines 92-116). -/
def build_search_request (args : SearchArgs) : JValue :=
  .obj ([("customerId", .str args.customer_id), ("query", .str args.query)]
    ++ (if args.use_search then
          (match args.page_size with
           | some page_size => [("pageSize", .num page_size)]
           | none => [])
          ++ (match args.page_token with
              | some page_token => [("pageToken", .str page_token)]
              | none => [])
        else [])
    ++ (if args.validate_only then [("validateOnly", .bool true)] else [])
    ++ (match args.summary_row_setting with
        | some setting => [("summaryRowSetting", .str setting)]
        | none => [])
    ++ (if args.use_search && args.return_total_results_count then
          [("returnTotalResultsCount", .bool true)]
        else []))

/-! ## Batch-mutate shaper (src/mutate.rs) -/

structure MutateArgs where
  customer_id : String
  ops : Option JValue
  body : Option JValue
  partial_failure : Bool
  validate_only : Bool
  response_content_type : Option String

/-- `build_request` (src/mutate.rs lines 34-58): requires `ops`; the source
inserts `customerId` before reading `ops`, but an error there discards the
map, so checking `ops` first is observationally the same. -/
def build_mutate_request (args : MutateArgs) : Except CliError JValue :=
  match args.ops with
  | none => .error (.input "--ops required unless --body provided")
  | some ops =>
    .ok (.obj ([("customerId", .str args.customer_id), ("mutateOperations", ops)]
      ++ (if args.partial_failure then [("partialFailure", .bool true)] else [])
      ++ (if args.validate_only then [("validateOnly", .bool true)] else [])
      ++ (match args.response_content_type with
          | some response_content_type =>
              [("responseContentType", .str response_content_type)]
          | none => [])))

/-- Stages `run_mutate` (src/mutate.rs lines 21-32) passes through after
resolving the method: the request value handed to `dynamic_from_value`
(encoding) and the `unary` network call. Encoding success and the network
exchange themselves are outside this model; the claim is about what happens
before them. -/
inductive MutStage where
  | encoded (body : JValue)
  | requested

/-- `run_mutate` (src/mutate.rs lines 21-32) up to its first network call:
resolve `GoogleAdsService.Mutate`, take the pre-built `body` if one was
given, otherwise shape one from `ops`; on success the body reaches encoding
and then the unary request. -/
def run_mutate_trace (pool : DescriptorPool) (args : MutateArgs) :
    List MutStage × Except CliError Unit :=
  match find_method pool "google-ads-service" "mutate" with
  | .error e => ([], .error e)
  | .ok _ =>
    match (match args.body with
           | some body => Except.ok body
           | none => build_mutate_request args) with
    | .error e => ([], .error e)
    | .ok body => ([.encoded body, .requested], .ok ())

/-! ## Invocation flow of the raw subcommand (src/main.rs) -/

/-- Network activity of one CLI run: the transport connection
(`AdsClient::connect`, src/client.rs lines 19-39) and the RPC exchange for
a method (`unary` / `server_stream`). -/
inductive NetEvent where
  | connect (endpoint : String)
  | rpcRequest (method : String)
deriving DecidableEq, Repr

/-- The `raw` invocation path of `run` (src/main.rs lines 32-162): `run`
establishes the transport connection (lines 61-68) before dispatching any
invoking subcommand; the `raw` branch (lines 121-158) then resolves the
method, rejects client streaming, reads the JSON body, encodes it and
performs the call. Reading and converting the body are local computation
abstracted as the `parseBody` argument; both the streaming and the unary
continuations end in one RPC exchange, recorded as `rpcRequest`. -/
def runRawCmd (pool : DescriptorPool) (endpoint service method : String)
    (parseBody : Except CliError JValue) : List NetEvent × Except CliError Unit :=
  let connected : List NetEvent := [.connect endpoint]
  match find_method pool service method with
  | .error e => (connected, .error e)
  | .ok m =>
    if m.client_streaming then
      (connected, .error (.unsupported "client streaming is not supported"))
    else
      match parseBody with
      | .error e => (connected, .error e)
      | .ok _ => (connected ++ [.rpcRequest m.name], .ok ())

/-! ## Concrete pool used for witnesses and counterexamples -/

def cxMethod : MethodDescriptor :=
  { name := "Bar"
    input_type := "google.ads.googleads.v1.services.BarRequest"
    output_type := "google.ads.googleads.v1.services.BarResponse"
    client_streaming := false
    server_streaming := false }

def cxService : ServiceDescriptor :=
  { name := "FooService"
    full_name := "google.ads.googleads.v1.services.FooService"
    methods := [cxMethod] }

def cxPool : DescriptorPool := [cxService]

def cxStreamMethod : MethodDescriptor :=
  { name := "UploadThings"
    input_type := "google.ads.googleads.v1.services.UploadThingsRequest"
    output_type := "google.ads.googleads.v1.services.UploadThingsResponse"
    client_streaming := true
    server_streaming := false }

def cxStreamService : ServiceDescriptor :=
  { name := "StreamService"
    full_name := "google.ads.googleads.v1.services.StreamService"
    methods := [cxStreamMethod] }

def cxStreamPool : DescriptorPool := [cxStreamService]

def cxMutate : MethodDescriptor :=
  { name := "Mutate"
    input_type := "google.ads.googleads.v1.services.MutateGoogleAdsRequest"
    output_type := "google.ads.googleads.v1.services.MutateGoogleAdsResponse"
    client_streaming := false
    server_streaming := false }

def cxAdsService : ServiceDescriptor :=
  { name := "GoogleAdsService"
    full_name := "google.ads.googleads.v1.services.GoogleAdsService"
    methods := [cxMutate] }

def cxAdsPool : DescriptorPool := [cxAdsService]

/-- Witness descriptor for the codec round-trip: a scalar, a bool, a bytes
field, an enum, a nested message, a packed repeated scalar and a repeated
nested message. -/
def exInnerDesc : PFields :=
  .cons 10 false .kint (.cons 11 false .kbytes .nil)

def exDesc : PFields :=
  .cons 1 false .kint (
  .cons 2 false .kbool (
  .cons 3 false .kbytes (
  .cons 4 false .kenum (
  .cons 5 false (.kmsg exInnerDesc) (
  .cons 6 true .kint (
  .cons 7 true (.kmsg exInnerDesc) .nil))))))

def exInnerVal : PSlots :=
  .cons (.one (.vint 7)) (.cons (.one (.vbytes [104, 105])) .nil)

def exInnerVal2 : PSlots :=
  .cons (.one (.vint 0)) (.cons (.one (.vbytes [255])) .nil)

/-- Witness value: non-default scalars, one field left at its default, a
nested message, packed repeated ints and two repeated nested messages. -/
def exSlots : PSlots :=
  .cons (.one (.vint 300)) (
  .cons (.one (.vbool false)) (
  .cons (.one (.vbytes [1, 2, 3])) (
  .cons (.one (.venum 9)) (
  .cons (.one (.vmsg exInnerVal)) (
  .cons (.many (.cons (.vint 1) (.cons (.vint 200) .nil))) (
  .cons (.many (.cons (.vmsg exInnerVal) (.cons (.vmsg exInnerVal2) .nil))) .nil))))))

/-! # Theorems -/

/-! ## Character-level facts -/

theorem toNat_ofNat_valid {n : Nat} (h : n.isValidChar) : (Char.ofNat n).toNat = n := by
  unfold Char.ofNat
  rw [dif_pos h]
  rfl

theorem isAsciiUpper_spec {c : Char} (h : isAsciiUpper c = true) :
    65 ≤ c.toNat ∧ c.toNat ≤ 90 := by
  simpa [isAsciiUpper] using h

theorem toAsciiLower_toNat {c : Char} (h : isAsciiUpper c = true) :
    (toAsciiLower c).toNat = c.toNat + 32 := by
  obtain ⟨h1, h2⟩ := isAsciiUpper_spec h
  rw [toAsciiLower, if_pos h]
  exact toNat_ofNat_valid (Or.inl (by omega))

theorem toAsciiLower_of_not_upper {c : Char} (h : isAsciiUpper c = false) :
    toAsciiLower c = c := by
  rw [toAsciiLower, h]
  rfl

theorem isAsciiAlnum_of_upper {c : Char} (h : isAsciiUpper c = true) :
    isAsciiAlnum c = true := by
  obtain ⟨h1, h2⟩ := isAsciiUpper_spec h
  simp [isAsciiAlnum]
  omega

theorem isAsciiAlnum_toAsciiLower_of_upper {c : Char} (h : isAsciiUpper c = true) :
    isAsciiAlnum (toAsciiLower c) = true := by
  obtain ⟨h1, h2⟩ := isAsciiUpper_spec h
  have ht := toAsciiLower_toNat h
  simp [isAsciiAlnum, ht]
  omega

theorem toAsciiLower_idem_of_upper {c : Char} (h : isAsciiUpper c = true) :
    toAsciiLower (toAsciiLower c) = toAsciiLower c := by
  obtain ⟨h1, h2⟩ := isAsciiUpper_spec h
  have ht := toAsciiLower_toNat h
  have hnu : isAsciiUpper (toAsciiLower c) = false := by
    simp [isAsciiUpper, ht]
    omega
  exact toAsciiLower_of_not_upper hnu

/-! ## C10: normalize absorbs to_kebab -/

theorem normalizeChars_append (xs ys : List Char) :
    normalizeChars (xs ++ ys) = normalizeChars xs ++ normalizeChars ys := by
  simp [normalizeChars]

theorem normalizeChars_cons (ch : Char) (rest : List Char) :
    normalizeChars (ch :: rest) =
      (if isAsciiAlnum ch then [toAsciiLower ch] else []) ++ normalizeChars rest := by
  by_cases h : isAsciiAlnum ch = true <;> simp [normalizeChars, List.filterMap_cons, h]

theorem normalizeChars_toKebabChars (cs : List Char) (i : Nat) :
    normalizeChars (toKebabChars cs i) = normalizeChars cs := by
  induction cs generalizing i with
  | nil => rfl
  | cons ch rest ih =>
    rw [toKebabChars, normalizeChars_append, ih]
    show _ ++ _ = normalizeChars (ch :: rest)
    rw [normalizeChars_cons]
    congr 1
    by_cases hu : isAsciiUpper ch = true
    · rw [if_pos hu, normalizeChars_append, isAsciiAlnum_of_upper hu, if_pos rfl]
      have hdash : normalizeChars ['-'] = [] := by decide
      have hone : normalizeChars [toAsciiLower ch] = [toAsciiLower ch] := by
        simp [normalizeChars, isAsciiAlnum_toAsciiLower_of_upper hu,
          toAsciiLower_idem_of_upper hu]
      rcases Nat.eq_zero_or_pos i with hi | hi
      · subst hi
        simpa [normalizeChars] using hone
      · rw [if_pos hi, hdash, hone, List.nil_append]
    · rw [Bool.not_eq_true] at hu
      rw [if_neg (by simp [hu])]
      by_cases hus : ch = '_'
      · subst hus
        rw [if_pos rfl]
        decide
      · rw [if_neg hus]
        rw [normalizeChars_cons]
        simp [normalizeChars]

theorem normalize_to_kebab_eq (s : String) : normalize (to_kebab s) = normalize s := by
  show (⟨normalizeChars (toKebabChars s.data 0)⟩ : String) = ⟨normalizeChars s.data⟩
  rw [normalizeChars_toKebabChars]

theorem names_match_iff {candidate input : String} :
    names_match candidate input = true ↔ normalize candidate = normalize input := by
  simp [names_match]

theorem names_match_kebab_eq (candidate input : String) :
    names_match (to_kebab candidate) input = names_match candidate input := by
  unfold names_match
  rw [normalize_to_kebab_eq]

/-- C10: normalizing a kebab-converted name gives the same string as
normalizing the original, so `names_match` accepts the declared form and the
kebab form of a candidate on exactly the same inputs: the kebab branch of
the lookup never matches an input the declared-name branch rejects. -/
theorem kebab_normalize_agree :
    (∀ s : String, normalize (to_kebab s) = normalize s) ∧
    (∀ candidate input : String,
      names_match (to_kebab candidate) input = names_match candidate input) :=
  ⟨normalize_to_kebab_eq, names_match_kebab_eq⟩

/-! ## C2: name forms accepted by find_method -/

theorem find?_eq_some_of_unique {α : Type} (p : α → Bool) (l : List α) (a : α)
    (ha : a ∈ l) (hpa : p a = true) (huniq : ∀ x ∈ l, p x = true → x = a) :
    l.find? p = some a := by
  induction l with
  | nil => cases ha
  | cons b t ih =>
    by_cases hb : p b = true
    · have hba : b = a := huniq b (List.mem_cons_self b t) hb
      subst hba
      simp [List.find?_cons_of_pos _ hb]
    · rw [List.find?_cons_of_neg _ (by simpa using hb)]
      have hat : a ∈ t := by
        rcases List.mem_cons.mp ha with h | h
        · exact absurd (h ▸ hpa) hb
        · exact h
      exact ih hat fun x hx hpx => huniq x (List.mem_cons_of_mem _ hx) hpx

theorem service_matches_iff {s : ServiceDescriptor} {q : String} :
    service_matches s q = true ↔
      (normalize s.name = normalize q ∨ normalize s.full_name = normalize q) := by
  unfold service_matches
  rw [names_match_kebab_eq]
  simp only [Bool.or_eq_true, names_match_iff]
  tauto

/-- C2 (amended): for a visible service and one of its methods, when the
normalized names involved are unambiguous inside the pool, `find_method`
returns that very method for the service argument given in any of the three
forms (declared, kebab, fully-qualified) and the method argument given in
declared or kebab form. The fully-qualified form of the *method* argument is
not accepted (see the counterexample). -/
theorem find_method_three_forms (pool : DescriptorPool) (svc : ServiceDescriptor)
    (m : MethodDescriptor) (qs qm : String)
    (hsvc : svc ∈ pool) (hvis : is_google_ads_service svc = true)
    (hm : m ∈ svc.methods)
    (huniqS : ∀ s ∈ pool, is_google_ads_service s = true →
      (normalize s.name = normalize svc.name ∨
        normalize s.name = normalize svc.full_name ∨
        normalize s.full_name = normalize svc.name ∨
        normalize s.full_name = normalize svc.full_name) → s = svc)
    (huniqM : ∀ m' ∈ svc.methods, normalize m'.name = normalize m.name → m' = m)
    (hqs : qs = svc.name ∨ qs = to_kebab svc.name ∨ qs = svc.full_name)
    (hqm : qm = m.name ∨ qm = to_kebab m.name) :
    find_method pool qs qm = .ok m := by
  have hqsn : normalize qs = normalize svc.name ∨ normalize qs = normalize svc.full_name := by
    rcases hqs with h | h | h
    · exact Or.inl (by rw [h])
    · exact Or.inl (by rw [h, normalize_to_kebab_eq])
    · exact Or.inr (by rw [h])
  have hqmn : normalize qm = normalize m.name := by
    rcases hqm with h | h
    · rw [h]
    · rw [h, normalize_to_kebab_eq]
  have hsvc_matches : service_matches svc qs = true := by
    rw [service_matches_iff]
    rcases hqsn with h | h
    · exact Or.inl h.symm
    · exact Or.inr h.symm
  have hfs : find_service pool qs = .ok svc := by
    unfold find_service
    rw [find?_eq_some_of_unique _ pool svc hsvc (by simp [hvis, hsvc_matches])
      (fun x hx hpx => ?_)]
    obtain ⟨hxvis, hxm⟩ : is_google_ads_service x = true ∧ service_matches x qs = true := by
      simpa using hpx
    rcases service_matches_iff.mp hxm with h | h <;> rcases hqsn with h' | h'
    · exact huniqS x hx hxvis (Or.inl (h.trans h'))
    · exact huniqS x hx hxvis (Or.inr (Or.inl (h.trans h')))
    · exact huniqS x hx hxvis (Or.inr (Or.inr (Or.inl (h.trans h'))))
    · exact huniqS x hx hxvis (Or.inr (Or.inr (Or.inr (h.trans h'))))
  unfold find_method
  rw [hfs]
  dsimp only
  rw [find?_eq_some_of_unique _ svc.methods m hm
    (by simp [names_match_iff, hqmn.symm]) (fun x hx hpx => ?_)]
  rw [names_match_kebab_eq, Bool.or_self, names_match_iff] at hpx
  exact huniqM x hx (hpx.trans hqmn)

/-- C2 counterexample: the claim also asserts the fully-qualified form of
the *method* name resolves, but the source's method lookup only tries the
declared and kebab forms: on a pool holding `FooService` with method `Bar`,
the fully-qualified method name `google.ads.googleads.v1.services.FooService/Bar`
is rejected while the declared form resolves. -/
theorem find_method_full_method_name_fails :
    find_method cxPool "FooService" "google.ads.googleads.v1.services.FooService/Bar" =
      .error (.resolution
        "unknown method FooService google.ads.googleads.v1.services.FooService/Bar") ∧
    find_method cxPool "FooService" "Bar" = .ok cxMethod := by
  constructor
  · rfl
  · rfl

theorem find_method_three_forms_witness :
    find_method cxPool "foo-service" "bar" = .ok cxMethod :=
  find_method_three_forms cxPool cxService cxMethod "foo-service" "bar"
    (by decide) (by decide) (by decide) (by decide) (by decide)
    (Or.inr (Or.inl (by decide))) (Or.inr (by decide))

/-! ## C5: resolution errors name the unresolved token -/

/-- C5: when no visible service matches, `find_method` returns the
resolution error `unknown service <token>` (no method lookup happens); when
the service resolves but no method matches, it returns the resolution error
`unknown method <service> <method>`, naming the unresolved method token. In
both cases the error is a resolution error, never a transport error. -/
theorem find_method_not_found (pool : DescriptorPool) (s m : String) :
    ((∀ svc ∈ pool, is_google_ads_service svc = true → service_matches svc s = false) →
      find_method pool s m = .error (.resolution ("unknown service " ++ s))) ∧
    (∀ svc, find_service pool s = .ok svc →
      (∀ m' ∈ svc.methods,
        (names_match m'.name m || names_match (to_kebab m'.name) m) = false) →
      find_method pool s m = .error (.resolution ("unknown method " ++ s ++ " " ++ m))) := by
  constructor
  · intro hnone
    have hfind : pool.find?
        (fun svc => is_google_ads_service svc && service_matches svc s) = none := by
      rw [List.find?_eq_none]
      intro x hx
      simp only [Bool.and_eq_true, not_and]
      intro hvis
      simp [hnone x hx hvis]
    unfold find_method find_service
    rw [hfind]
  · intro svc hsvc hnom
    have hfind : svc.methods.find?
        (fun m' => names_match m'.name m || names_match (to_kebab m'.name) m) = none := by
      rw [List.find?_eq_none]
      intro x hx
      simp [hnom x hx]
    unfold find_method
    rw [hsvc]
    dsimp only
    rw [hfind]

theorem find_method_not_found_witness :
    find_method cxPool "nope" "bar" = .error (.resolution "unknown service nope") ∧
    find_method cxPool "foo-service" "zap" =
      .error (.resolution "unknown method foo-service zap") :=
  ⟨(find_method_not_found cxPool "nope" "bar").1 (by decide),
   (find_method_not_found cxPool "foo-service" "zap").2 cxService (by rfl) (by decide)⟩

/-! ## C4: the command tree is sorted and deterministic -/

theorem charListLe_total (a b : List Char) : charListLe a b = true ∨ charListLe b a = true := by
  induction a generalizing b with
  | nil => exact Or.inl rfl
  | cons x xs ih =>
    cases b with
    | nil => exact Or.inr rfl
    | cons y ys =>
      rcases lt_trichotomy x y with h | h | h
      · exact Or.inl (by simp [charListLe, h])
      · subst h
        rcases ih ys with h' | h'
        · exact Or.inl (by simp [charListLe, h'])
        · exact Or.inr (by simp [charListLe, h'])
      · exact Or.inr (by simp [charListLe, h])

theorem charListLe_trans {a b c : List Char} (hab : charListLe a b = true)
    (hbc : charListLe b c = true) : charListLe a c = true := by
  induction a generalizing b c with
  | nil => rfl
  | cons x xs ih =>
    cases b with
    | nil => simp [charListLe] at hab
    | cons y ys =>
      cases c with
      | nil => simp [charListLe] at hbc
      | cons z zs =>
        simp only [charListLe, Bool.or_eq_true, Bool.and_eq_true, decide_eq_true_eq,
          beq_iff_eq] at hab hbc ⊢
        rcases hab with h1 | ⟨h1, h1'⟩ <;> rcases hbc with h2 | ⟨h2, h2'⟩
        · exact Or.inl (h1.trans h2)
        · exact Or.inl (h2 ▸ h1)
        · exact Or.inl (h1 ▸ h2)
        · exact Or.inr ⟨h1.trans h2, ih h1' h2'⟩

theorem serviceLe_isTotal : ∀ a b : ServiceDef, serviceLe a b ∨ serviceLe b a :=
  fun a b => charListLe_total a.name.data b.name.data

theorem serviceLe_isTrans : ∀ a b c : ServiceDef, serviceLe a b → serviceLe b c → serviceLe a c :=
  fun _ _ _ hab hbc => charListLe_trans hab hbc

theorem methodLe_isTotal : ∀ a b : MethodDef, methodLe a b ∨ methodLe b a :=
  fun a b => charListLe_total a.name.data b.name.data

theorem methodLe_isTrans : ∀ a b c : MethodDef, methodLe a b → methodLe b c → methodLe a c :=
  fun _ _ _ hab hbc => charListLe_trans hab hbc

/-- C4: the command tree built from any pool lists its services sorted
ascending by their normalized (kebab) name, lists each service's methods
sorted ascending by their normalized (kebab) name, and two calls of
`build_tree` on the same pool return identical trees (so their
serializations are byte-identical). -/
theorem build_tree_sorted_deterministic (pool : DescriptorPool) :
    List.Sorted serviceLe (build_tree pool).services ∧
    (∀ svc ∈ (build_tree pool).services, List.Sorted methodLe svc.methods) ∧
    build_tree pool = build_tree pool := by
  refine ⟨?_, ?_, rfl⟩
  · exact @List.sorted_insertionSort ServiceDef serviceLe _
      ⟨serviceLe_isTotal⟩ ⟨serviceLe_isTrans⟩ _
  · intro svc hsvc
    have hmem : svc ∈ (pool.filter is_google_ads_service).map _ :=
      ((List.perm_insertionSort serviceLe _).mem_iff).mp hsvc
    obtain ⟨s, _, hfs⟩ := List.mem_map.mp hmem
    have hms : svc.methods = List.insertionSort methodLe
        (s.methods.map fun m =>
          { name := to_kebab m.name
            full_name := s.full_name ++ "/" ++ m.name
            input_type := m.input_type
            output_type := m.output_type
            client_streaming := m.client_streaming
            server_streaming := m.server_streaming }) := by
      rw [← hfs]
    rw [hms]
    exact @List.sorted_insertionSort MethodDef methodLe _
      ⟨methodLe_isTotal⟩ ⟨methodLe_isTrans⟩ _

/-! ## C9: the detected api version -/

theorem build_tree_api_version (pool : DescriptorPool) :
    (build_tree pool).api_version = (detect_api_version pool).getD "unknown" := rfl

/-- C9: whenever some visible service's fully-qualified name contains a
dot-separated segment of the form `v` followed only by digits, the
tree's `api_version` is such a segment of some visible service's name;
when no visible service has one, `api_version` is exactly `"unknown"`. -/
theorem api_version_detected (pool : DescriptorPool) :
    ((∃ svc ∈ pool, is_google_ads_service svc = true ∧
        ∃ part ∈ splitDot svc.full_name.data, isVersionSeg part = true) →
      ∃ svc ∈ pool, is_google_ads_service svc = true ∧
        ∃ part ∈ splitDot svc.full_name.data, isVersionSeg part = true ∧
          (build_tree pool).api_version = ⟨part⟩) ∧
    ((∀ svc ∈ pool, is_google_ads_service svc = true →
        ∀ part ∈ splitDot svc.full_name.data, isVersionSeg part = false) →
      (build_tree pool).api_version = "unknown") := by
  constructor
  · intro ⟨svc0, hmem0, hvis0, part0, hp0, hver0⟩
    have hne : detect_api_version pool ≠ none := by
      intro hnone
      rw [detect_api_version, List.findSome?_eq_none_iff] at hnone
      have := hnone svc0 hmem0
      rw [if_pos hvis0, Option.map_eq_none'] at this
      rw [List.find?_eq_none] at this
      exact this part0 hp0 hver0
    obtain ⟨s, hs⟩ := Option.ne_none_iff_exists'.mp hne
    obtain ⟨svc, hmem, hf⟩ := List.exists_of_findSome?_eq_some hs
    by_cases hvis : is_google_ads_service svc = true
    · rw [if_pos hvis] at hf
      obtain ⟨part, hfind, hmk⟩ := Option.map_eq_some'.mp hf
      refine ⟨svc, hmem, hvis, part, List.mem_of_find?_eq_some hfind,
        List.find?_some hfind, ?_⟩
      rw [build_tree_api_version, hs]
      exact hmk.symm
    · rw [if_neg hvis] at hf
      cases hf
  · intro hnone
    have hdet : detect_api_version pool = none := by
      rw [detect_api_version, List.findSome?_eq_none_iff]
      intro svc hmem
      by_cases hvis : is_google_ads_service svc = true
      · rw [if_pos hvis]
        have : (splitDot svc.full_name.data).find? isVersionSeg = none := by
          rw [List.find?_eq_none]
          intro part hpart
          simp [hnone svc hmem hvis part hpart]
        rw [this]
        rfl
      · rw [if_neg hvis]
    rw [build_tree_api_version, hdet]
    rfl

theorem api_version_detected_witness :
    ∃ svc ∈ cxPool, is_google_ads_service svc = true ∧
      ∃ part ∈ splitDot svc.full_name.data, isVersionSeg part = true ∧
        (build_tree cxPool).api_version = ⟨part⟩ :=
  (api_version_detected cxPool).1 (by decide)

/-! ## C6: client-streaming methods are rejected -/

/-- C6 counterexample: the claim says a client-streaming method is rejected
before any network activity, with "no connection attempt"; but `run`
(src/main.rs lines 61-68) establishes the transport connection before
dispatching the `raw` subcommand, so the connection event is already in the
trace when the unsupported-mode error is raised. -/
theorem client_streaming_still_connects :
    (runRawCmd cxStreamPool "googleads.googleapis.com" "stream-service" "upload-things"
        (.ok (.obj []))).2 =
      .error (.unsupported "client streaming is not supported") ∧
    NetEvent.connect "googleads.googleapis.com" ∈
      (runRawCmd cxStreamPool "googleads.googleapis.com" "stream-service" "upload-things"
        (.ok (.obj []))).1 := by
  constructor
  · rfl
  · rw [show (runRawCmd cxStreamPool "googleads.googleapis.com" "stream-service"
      "upload-things" (.ok (.obj []))).1 = [.connect "googleads.googleapis.com"] from rfl]
    exact List.mem_singleton.mpr rfl

/-- C6 (amended): invoking a method whose client-streaming flag is true is
rejected with an error naming the unsupported mode before the RPC request
for that method is issued — no request event occurs — though the transport
connection was already established during client setup, before method
dispatch. -/
theorem client_streaming_rejected_before_request (pool : DescriptorPool)
    (endpoint service method : String) (parseBody : Except CliError JValue)
    (m : MethodDescriptor) (hfm : find_method pool service method = .ok m)
    (hcs : m.client_streaming = true) :
    (runRawCmd pool endpoint service method parseBody).2 =
      .error (.unsupported "client streaming is not supported") ∧
    (runRawCmd pool endpoint service method parseBody).1 = [.connect endpoint] ∧
    ∀ p, NetEvent.rpcRequest p ∉ (runRawCmd pool endpoint service method parseBody).1 := by
  have hrun : runRawCmd pool endpoint service method parseBody =
      ([.connect endpoint], .error (.unsupported "client streaming is not supported")) := by
    unfold runRawCmd
    rw [hfm]
    dsimp only
    rw [if_pos hcs]
  refine ⟨by rw [hrun], by rw [hrun], fun p => by rw [hrun]; simp⟩

theorem client_streaming_rejected_before_request_witness :
    (runRawCmd cxStreamPool "googleads.googleapis.com" "stream-service" "upload-things"
        (.ok (.obj []))).2 =
      .error (.unsupported "client streaming is not supported") ∧
    (runRawCmd cxStreamPool "googleads.googleapis.com" "stream-service" "upload-things"
        (.ok (.obj []))).1 = [.connect "googleads.googleapis.com"] ∧
    ∀ p, NetEvent.rpcRequest p ∉
      (runRawCmd cxStreamPool "googleads.googleapis.com" "stream-service" "upload-things"
        (.ok (.obj []))).1 :=
  client_streaming_rejected_before_request cxStreamPool "googleads.googleapis.com"
    "stream-service" "upload-things" (.ok (.obj [])) cxStreamMethod (by rfl) (by rfl)

/-! ## C7: shape of the query-search request -/

/-- C7: the query-search request is an object whose keys are among
`customerId` (the account identifier the spec calls `accountId`), `query`,
`pageSize`, `pageToken`, `validateOnly`, `summaryRowSetting` and
`returnTotalResultsCount`; the identifier and query are always present; the
paging fields appear exactly when the unary `Search` variant is requested
(and were supplied); `returnTotalResultsCount` appears only together with
the unary variant; nothing else appears. -/
theorem build_search_request_shape (args : SearchArgs) :
    ("customerId" ∈ jKeys (build_search_request args) ∧
      "query" ∈ jKeys (build_search_request args)) ∧
    ("pageSize" ∈ jKeys (build_search_request args) ↔
      args.use_search = true ∧ args.page_size.isSome = true) ∧
    ("pageToken" ∈ jKeys (build_search_request args) ↔
      args.use_search = true ∧ args.page_token.isSome = true) ∧
    ("validateOnly" ∈ jKeys (build_search_request args) ↔ args.validate_only = true) ∧
    ("summaryRowSetting" ∈ jKeys (build_search_request args) ↔
      args.summary_row_setting.isSome = true) ∧
    ("returnTotalResultsCount" ∈ jKeys (build_search_request args) ↔
      args.use_search = true ∧ args.return_total_results_count = true) ∧
    (∀ k ∈ jKeys (build_search_request args),
      k ∈ (["customerId", "query", "pageSize", "pageToken", "validateOnly",
            "summaryRowSetting", "returnTotalResultsCount"] : List String)) := by
  obtain ⟨ci, q, us, ps, pt, vo, srs, rtrc, r, j⟩ := args
  cases us <;> cases vo <;> cases rtrc <;>
    rcases ps with _ | ps <;> rcases pt with _ | pt <;> rcases srs with _ | srs <;>
    simp [build_search_request, jKeys]

/-! ## C8: batch-mutate body passthrough and required ops -/

/-- C8: if a full pre-built request body is supplied, shaping is skipped and
that body reaches encoding unmodified, whatever the other arguments are; if
no body is supplied, `mutateOperations` must have been supplied, and its
absence is an error raised before any encoding and before any network
call (the stage trace stays empty). -/
theorem run_mutate_body_or_ops (pool : DescriptorPool) (args : MutateArgs)
    (md : MethodDescriptor)
    (hfm : find_method pool "google-ads-service" "mutate" = .ok md) :
    (∀ body, args.body = some body →
      run_mutate_trace pool args = ([.encoded body, .requested], .ok ())) ∧
    (args.body = none → args.ops = none →
      run_mutate_trace pool args =
        ([], .error (.input "--ops required unless --body provided"))) := by
  constructor
  · intro body hbody
    unfold run_mutate_trace
    rw [hfm]
    dsimp only
    rw [hbody]
  · intro hbody hops
    unfold run_mutate_trace
    rw [hfm]
    dsimp only
    rw [hbody]
    dsimp only
    rw [build_mutate_request, hops]

theorem run_mutate_body_or_ops_witness :
    run_mutate_trace cxAdsPool
        { customer_id := "1234567890", ops := some (.arr []), body := some (.obj [])
          partial_failure := false, validate_only := false
          response_content_type := none } =
      ([.encoded (.obj []), .requested], .ok ()) ∧
    run_mutate_trace cxAdsPool
        { customer_id := "1234567890", ops := none, body := none
          partial_failure := false, validate_only := false
          response_content_type := none } =
      ([], .error (.input "--ops required unless --body provided")) :=
  ⟨(run_mutate_body_or_ops cxAdsPool _ cxMutate (by rfl)).1 (.obj []) rfl,
   (run_mutate_body_or_ops cxAdsPool _ cxMutate (by rfl)).2 rfl rfl⟩

/-! ## C1/C3: wire-codec lemmas. Varint round-trip first. -/

theorem encodeVarint_ne_nil (n : Nat) : encodeVarint n ≠ [] := by
  rw [encodeVarint]
  split <;> simp

theorem encodeVarint_length_pos (n : Nat) : 0 < (encodeVarint n).length := by
  cases h : encodeVarint n with
  | nil => exact absurd h (encodeVarint_ne_nil n)
  | cons b bs => simp

theorem decodeVarint_encode (n : Nat) (rest : List Nat) :
    decodeVarint (encodeVarint n ++ rest) = some (n, rest) := by
  induction n using Nat.strong_induction_on with
  | _ n ih =>
    rw [encodeVarint]
    split
    · next h =>
      simp [decodeVarint, h]
    · next h =>
      have hb : ¬(n % 128 + 128 < 128) := by omega
      rw [List.cons_append, decodeVarint, if_neg hb,
        ih (n / 128) (Nat.div_lt_self (by omega) (by omega))]
      have harith : (n % 128 + 128) % 128 + 128 * (n / 128) = n := by omega
      simp [harith]
      omega

theorem exists_cons_encodeVarint (n : Nat) : ∃ b bs, encodeVarint n = b :: bs := by
  cases h : encodeVarint n with
  | nil => exact absurd h (encodeVarint_ne_nil n)
  | cons b bs => exact ⟨b, bs, rfl⟩

/-! ### Packed payloads -/

theorem encodeNats_length_ge (ns : List Nat) : ns.length ≤ (encodeNats ns).length := by
  induction ns with
  | nil => simp [encodeNats]
  | cons n ns ih =>
    rw [encodeNats]
    simp only [List.length_append, List.length_cons]
    have := encodeVarint_length_pos n
    omega

theorem decodeVarintsAux_encode (ns : List Nat) :
    ∀ it, ns.length ≤ it → decodeVarintsAux it (encodeNats ns) = some ns := by
  induction ns with
  | nil => intro it _; rw [encodeNats]; cases it <;> rfl
  | cons n ns ih =>
    intro it hle
    obtain ⟨b, bs, hE⟩ := exists_cons_encodeVarint n
    rw [encodeNats]
    cases it with
    | zero => simp at hle
    | succ it' =>
      rw [hE, List.cons_append, decodeVarintsAux]
      rw [← List.cons_append, ← hE, decodeVarint_encode]
      dsimp only
      rw [ih it' (by simpa using hle)]

theorem decodeVarints_encodeNats (ns : List Nat) :
    decodeVarints (encodeNats ns) = some ns :=
  decodeVarintsAux_encode ns (encodeNats ns).length (encodeNats_length_ge ns)

theorem natsToVals_packNats {k : PKind} (hk : k = .kint ∨ k = .kbool ∨ k = .kenum) :
    ∀ (vs : PValList), validList k vs = true → natsToVals k (packNats k vs) = vs
  | .nil, _ => by rw [packNats, natsToVals]
  | .cons v rest, hv => by
    rw [validList] at hv
    obtain ⟨hvv, hrest⟩ : validVal k v = true ∧ validList k rest = true := by simpa using hv
    rw [packNats, natsToVals, natsToVals_packNats hk rest hrest]
    rcases hk with rfl | rfl | rfl <;> cases v <;> simp_all [validVal, scalarNat, interpScalar]
    cases ‹Bool› <;> simp [scalarNat, interpScalar]

/-! ### List-structure helpers for the mutual value family -/

theorem pvAppend_nil : ∀ (vs : PValList), pvAppend vs .nil = vs
  | .nil => rfl
  | .cons v rest => by rw [pvAppend, pvAppend_nil rest]

theorem pvAppend_assoc : ∀ (a : PValList) (b c : PValList),
    pvAppend (pvAppend a b) c = pvAppend a (pvAppend b c)
  | .nil, _, _ => rfl
  | .cons v rest, b, c => by rw [pvAppend, pvAppend, pvAppend, pvAppend_assoc rest b c]

theorem pvAppend_snoc (a : PValList) (v : PVal) (b : PValList) :
    pvAppend (pvSnoc a v) b = pvAppend a (.cons v b) := by
  rw [pvSnoc, pvAppend_assoc]
  rfl

theorem psLen_defaultSlots : ∀ (fs : PFields), psLen (defaultSlots fs) = pfLen fs
  | .nil => by rw [defaultSlots, psLen, pfLen]
  | .cons num rep k rest => by rw [defaultSlots, psLen, pfLen, psLen_defaultSlots rest]

theorem fieldNums_append : ∀ (a b : PFields),
    fieldNums (pfAppend a b) = fieldNums a ++ fieldNums b
  | .nil, _ => rfl
  | .cons num rep k rest, b => by
    rw [pfAppend, fieldNums, fieldNums, fieldNums_append rest b]
    rfl

theorem pfAppend_cons_assoc : ∀ (a : PFields) (num : Nat) (rep : Bool) (k : PKind)
    (b : PFields),
    pfAppend (pfAppend a (.cons num rep k .nil)) b = pfAppend a (.cons num rep k b)
  | .nil, _, _, _, _ => rfl
  | .cons n r kk rest, num, rep, k, b => by
    rw [pfAppend, pfAppend, pfAppend, pfAppend_cons_assoc rest num rep k b]

theorem psAppend_cons_assoc : ∀ (a : PSlots) (s : PSlot) (b : PSlots),
    psAppend (psAppend a (.cons s .nil)) b = psAppend a (.cons s b)
  | .nil, _, _ => rfl
  | .cons t rest, s, b => by rw [psAppend, psAppend, psAppend, psAppend_cons_assoc rest s b]

theorem psLen_append_single : ∀ (a : PSlots) (s : PSlot),
    psLen (psAppend a (.cons s .nil)) = psLen a + 1
  | .nil, _ => rfl
  | .cons t rest, s => by rw [psAppend, psLen, psLen_append_single rest s, psLen]

theorem pfLen_append_single : ∀ (a : PFields) (num : Nat) (rep : Bool) (k : PKind),
    pfLen (pfAppend a (.cons num rep k .nil)) = pfLen a + 1
  | .nil, _, _, _ => rfl
  | .cons n r kk rest, num, rep, k => by
    rw [pfAppend, pfLen, pfLen_append_single rest num rep k, pfLen]

/-! ### DecSteps algebra -/

theorem DecSteps_nil (depth : Nat) (fs : PFields) (st : PSlots) :
    DecSteps depth fs st [] st 0 := by
  intro it rest
  rfl

theorem DecSteps_trans {depth : Nat} {fs : PFields} {st st' st'' : PSlots}
    {b1 b2 : List Nat} {c1 c2 : Nat}
    (h1 : DecSteps depth fs st b1 st' c1) (h2 : DecSteps depth fs st' b2 st'' c2) :
    DecSteps depth fs st (b1 ++ b2) st'' (c1 + c2) := by
  intro it rest
  have harith : it + (c1 + c2) = (it + c2) + c1 := by omega
  rw [harith, List.append_assoc, h1 (it + c2) (b2 ++ rest), h2]

theorem decodeLoop_nil (depth it : Nat) (fs : PFields) (st : PSlots) :
    decodeLoop depth it fs st [] = .ok st := by
  rw [decodeLoop]

/-! ### Dispatch lemmas: the field walk of decodeAt -/

theorem decodeAt_head (d : Nat) (num : Nat) (rep : Bool) (k : PKind) (fs' : PFields)
    (s : PSlot) (ss' : PSlots) (wt : Nat) (buf : List Nat) :
    decodeAt d (.cons num rep k fs') (.cons s ss') num wt buf =
      match decodePayload d rep k s wt buf with
      | .ok (s', rest) => .ok (.cons s' ss', rest)
      | .error e => .error e := by
  rw [decodeAt]
  simp

theorem psLen_zero_nil : ∀ {ss : PSlots}, psLen ss = 0 → ss = .nil
  | .nil, _ => rfl
  | .cons _ _, h => by rw [psLen] at h; omega

theorem decodeAt_pre (d num wt : Nat) (buf : List Nat) :
    ∀ (fsPre : PFields) (ssPre : PSlots) (fsTail : PFields) (ssTail : PSlots),
      psLen ssPre = pfLen fsPre →
      (fieldNums fsPre).contains num = false →
      decodeAt d (pfAppend fsPre fsTail) (psAppend ssPre ssTail) num wt buf =
        match decodeAt d fsTail ssTail num wt buf with
        | .ok (ss', r) => .ok (psAppend ssPre ss', r)
        | .error e => .error e
  | .nil, ssPre, fsTail, ssTail, halign, _ => by
    have hnil : ssPre = .nil := psLen_zero_nil (by rw [halign]; rfl)
    subst hnil
    rw [pfAppend, psAppend]
    cases hI : decodeAt d fsTail ssTail num wt buf with
    | ok p => cases p; rfl
    | error e => rfl
  | .cons n r k rest, ssPre, fsTail, ssTail, halign, hnot => by
    cases ssPre with
    | nil =>
      rw [psLen, pfLen] at halign
      omega
    | cons s ssPre' =>
      have hnn : ¬num = n ∧ num ∉ fieldNums rest := by
        rw [fieldNums] at hnot
        simpa using hnot
      rw [pfAppend, psAppend, decodeAt, if_neg (fun h => hnn.1 h.symm)]
      rw [decodeAt_pre d num wt buf rest ssPre' fsTail ssTail
        (by rw [psLen, pfLen] at halign; omega) (by simpa using hnn.2)]
      cases hI : decodeAt d fsTail ssTail num wt buf with
      | ok p => cases p; rfl
      | error e => rfl

/-! ### One record consumes one unit of the loop budget -/

theorem decodeLoop_record {d : Nat} {fs : PFields} {st st' : PSlots} {num wt : Nat}
    {payload : List Nat}
    (hwt : wt < 8)
    (hAt : ∀ rest, decodeAt d fs st num wt (payload ++ rest) = .ok (st', rest)) :
    DecSteps d fs st (encodeVarint (num * 8 + wt) ++ payload) st' 1 := by
  intro it rest
  obtain ⟨b, bs, hE⟩ := exists_cons_encodeVarint (num * 8 + wt)
  rw [List.append_assoc, hE, List.cons_append, decodeLoop]
  rw [← List.cons_append, ← hE, decodeVarint_encode]
  have hdiv : (num * 8 + wt) / 8 = num := by omega
  have hmod : (num * 8 + wt) % 8 = wt := by omega
  dsimp only
  rw [hdiv, hmod, hAt rest]

/-! ### Payload round-trips, one lemma per field shape -/

theorem take_len_append (body rest : List Nat) :
    (body ++ rest).take body.length = body :=
  List.take_left body rest

theorem drop_len_append (body rest : List Nat) :
    (body ++ rest).drop body.length = rest :=
  List.drop_left body rest

theorem len_le_append (body rest : List Nat) : body.length ≤ (body ++ rest).length := by
  simp

theorem decodePayload_int (d : Nat) (s : PSlot) (n : Nat) (rest : List Nat) :
    decodePayload d false .kint s 0 (encodeVarint n ++ rest) = .ok (.one (.vint n), rest) := by
  rw [decodePayload]
  rw [if_pos rfl, decodeVarint_encode]

theorem decodePayload_bool (d : Nat) (s : PSlot) (n : Nat) (rest : List Nat) :
    decodePayload d false .kbool s 0 (encodeVarint n ++ rest) =
      .ok (.one (.vbool (n != 0)), rest) := by
  rw [decodePayload]
  rw [if_pos rfl, decodeVarint_encode]

theorem decodePayload_enum (d : Nat) (s : PSlot) (n : Nat) (rest : List Nat) :
    decodePayload d false .kenum s 0 (encodeVarint n ++ rest) =
      .ok (.one (.venum n), rest) := by
  rw [decodePayload]
  rw [if_pos rfl, decodeVarint_encode]

theorem decodePayload_bytes (d : Nat) (s : PSlot) (bs : List Nat) (rest : List Nat) :
    decodePayload d false .kbytes s 2 (encodeVarint bs.length ++ (bs ++ rest)) =
      .ok (.one (.vbytes bs), rest) := by
  rw [decodePayload]
  rw [if_pos rfl, decodeVarint_encode]
  dsimp only
  rw [if_pos (len_le_append bs rest), take_len_append, drop_len_append]

theorem decodePayload_msg (d' : Nat) (fs' : PFields) (s : PSlot) (body : List Nat)
    (vs : PSlots) (rest : List Nat)
    (hinner : decodeLoop d' (body.length + 1) fs' (defaultSlots fs') body = .ok vs) :
    decodePayload (d' + 1) false (.kmsg fs') s 2
        (encodeVarint body.length ++ (body ++ rest)) =
      .ok (.one (.vmsg vs), rest) := by
  rw [decodePayload]
  rw [if_pos rfl, decodeVarint_encode]
  dsimp only
  rw [if_pos (len_le_append body rest), take_len_append, drop_len_append, hinner]

theorem decodePayload_packed_int (d : Nat) (acc : PValList) (vs : PValList)
    (hv : validList .kint vs = true) (rest : List Nat) :
    decodePayload d true .kint (.many acc) 2
        (encodeVarint (encodeNats (packNats .kint vs)).length ++
          (encodeNats (packNats .kint vs) ++ rest)) =
      .ok (.many (pvAppend acc vs), rest) := by
  rw [decodePayload]
  rw [if_pos rfl, decodeVarint_encode]
  dsimp only
  rw [if_pos (len_le_append _ rest), take_len_append, drop_len_append,
    decodeVarints_encodeNats]
  dsimp only
  rw [natsToVals_packNats (Or.inl rfl) vs hv]
  rfl

theorem decodePayload_packed_bool (d : Nat) (acc : PValList) (vs : PValList)
    (hv : validList .kbool vs = true) (rest : List Nat) :
    decodePayload d true .kbool (.many acc) 2
        (encodeVarint (encodeNats (packNats .kbool vs)).length ++
          (encodeNats (packNats .kbool vs) ++ rest)) =
      .ok (.many (pvAppend acc vs), rest) := by
  rw [decodePayload]
  rw [if_pos rfl, decodeVarint_encode]
  dsimp only
  rw [if_pos (len_le_append _ rest), take_len_append, drop_len_append,
    decodeVarints_encodeNats]
  dsimp only
  rw [natsToVals_packNats (Or.inr (Or.inl rfl)) vs hv]
  rfl

theorem decodePayload_packed_enum (d : Nat) (acc : PValList) (vs : PValList)
    (hv : validList .kenum vs = true) (rest : List Nat) :
    decodePayload d true .kenum (.many acc) 2
        (encodeVarint (encodeNats (packNats .kenum vs)).length ++
          (encodeNats (packNats .kenum vs) ++ rest)) =
      .ok (.many (pvAppend acc vs), rest) := by
  rw [decodePayload]
  rw [if_pos rfl, decodeVarint_encode]
  dsimp only
  rw [if_pos (len_le_append _ rest), take_len_append, drop_len_append,
    decodeVarints_encodeNats]
  dsimp only
  rw [natsToVals_packNats (Or.inr (Or.inr rfl)) vs hv]
  rfl

theorem decodePayload_elem_bytes (d : Nat) (acc : PValList) (bs : List Nat)
    (rest : List Nat) :
    decodePayload d true .kbytes (.many acc) 2
        (encodeVarint bs.length ++ (bs ++ rest)) =
      .ok (.many (pvSnoc acc (.vbytes bs)), rest) := by
  rw [decodePayload]
  rw [if_pos rfl, decodeVarint_encode]
  dsimp only
  rw [if_pos (len_le_append bs rest), take_len_append, drop_len_append]
  rfl

theorem decodePayload_elem_msg (d' : Nat) (fs' : PFields) (acc : PValList)
    (body : List Nat) (vs : PSlots) (rest : List Nat)
    (hinner : decodeLoop d' (body.length + 1) fs' (defaultSlots fs') body = .ok vs) :
    decodePayload (d' + 1) true (.kmsg fs') (.many acc) 2
        (encodeVarint body.length ++ (body ++ rest)) =
      .ok (.many (pvSnoc acc (.vmsg vs)), rest) := by
  rw [decodePayload]
  rw [if_pos rfl, decodeVarint_encode]
  dsimp only
  rw [if_pos (len_le_append body rest), take_len_append, drop_len_append, hinner]
  rfl

/-! ### One encoded record at a declared field -/

theorem DecSteps_field_record
    (d num wt : Nat) (rep : Bool) (k : PKind) (fsPre fsTail : PFields)
    (ssPre ssTail : PSlots) (s s' : PSlot) (payload : List Nat)
    (hwt : wt < 8)
    (halign : psLen ssPre = pfLen fsPre)
    (hnot : (fieldNums fsPre).contains num = false)
    (hp : ∀ rest, decodePayload d rep k s wt (payload ++ rest) = .ok (s', rest)) :
    DecSteps d (pfAppend fsPre (.cons num rep k fsTail))
      (psAppend ssPre (.cons s ssTail))
      (encodeVarint (num * 8 + wt) ++ payload)
      (psAppend ssPre (.cons s' ssTail)) 1 := by
  apply decodeLoop_record hwt
  intro rest
  rw [decodeAt_pre d num wt (payload ++ rest) fsPre ssPre _ _ halign hnot]
  rw [decodeAt_head, hp rest]

/-! ### Defaults, spelled out -/

theorem defaultSlot_single (k : PKind) : defaultSlot false k = .one (defaultVal k) := by
  rw [defaultSlot]
  rfl

theorem defaultSlot_rep (k : PKind) : defaultSlot true k = .many .nil := by
  rw [defaultSlot]
  rfl

theorem defaultVal_int : defaultVal .kint = .vint 0 := by rw [defaultVal]

theorem defaultVal_bool : defaultVal .kbool = .vbool false := by rw [defaultVal]

theorem defaultVal_enum : defaultVal .kenum = .venum 0 := by rw [defaultVal]

theorem defaultVal_bytes : defaultVal .kbytes = .vbytes [] := by rw [defaultVal]

theorem pvIsNil_eq_nil : ∀ {vs : PValList}, pvIsNil vs = true → vs = .nil
  | .nil, _ => rfl
  | .cons _ _, h => by rw [pvIsNil] at h; cases h

/-! ### Element sequences of repeated bytes / message fields -/

theorem DecSteps_elems_bytes
    (d num : Nat) (fsPre fsTail : PFields) (ssPre ssTail : PSlots)
    (halign : psLen ssPre = pfLen fsPre)
    (hnot : (fieldNums fsPre).contains num = false) :
    ∀ (elems acc : PValList), validList .kbytes elems = true →
    DecSteps d (pfAppend fsPre (.cons num true .kbytes fsTail))
      (psAppend ssPre (.cons (.many acc) ssTail))
      (encodeElems num .kbytes elems)
      (psAppend ssPre (.cons (.many (pvAppend acc elems)) ssTail))
      (pvLen elems)
  | .nil, acc, _ => by
    rw [encodeElems, pvAppend_nil, pvLen]
    exact DecSteps_nil d _ _
  | .cons v vs, acc, hval => by
    obtain ⟨hv, hvs⟩ : validVal .kbytes v = true ∧ validList .kbytes vs = true := by
      rw [validList] at hval
      simpa using hval
    obtain ⟨bs, rfl⟩ : ∃ bs, v = .vbytes bs := by
      cases v <;> simp_all [validVal]
    rw [encodeElems, encodeElem, pvLen]
    have h1 := DecSteps_field_record d num 2 true .kbytes fsPre fsTail ssPre ssTail
      (.many acc) (.many (pvSnoc acc (.vbytes bs))) (encodeVarint bs.length ++ bs)
      (by omega) halign hnot
      (fun rest => by
        rw [List.append_assoc]
        exact decodePayload_elem_bytes d acc bs rest)
    have h2 := DecSteps_elems_bytes d num fsPre fsTail ssPre ssTail halign hnot
      vs (pvSnoc acc (.vbytes bs)) hvs
    rw [pvAppend_snoc] at h2
    have h3 := DecSteps_trans h1 h2
    rw [Nat.add_comm 1 (pvLen vs)] at h3
    simpa [List.append_assoc] using h3

theorem DecSteps_elems_msg
    (d' num : Nat) (fs' : PFields) (fsPre fsTail : PFields) (ssPre ssTail : PSlots)
    (halign : psLen ssPre = pfLen fsPre)
    (hnot : (fieldNums fsPre).contains num = false)
    (hinner : ∀ vs', validSlots fs' vs' = true →
      decodeLoop d' ((encodeMsg fs' vs').length + 1) fs' (defaultSlots fs')
        (encodeMsg fs' vs') = .ok vs') :
    ∀ (elems acc : PValList), validList (.kmsg fs') elems = true →
    DecSteps (d' + 1) (pfAppend fsPre (.cons num true (.kmsg fs') fsTail))
      (psAppend ssPre (.cons (.many acc) ssTail))
      (encodeElems num (.kmsg fs') elems)
      (psAppend ssPre (.cons (.many (pvAppend acc elems)) ssTail))
      (pvLen elems)
  | .nil, acc, _ => by
    rw [encodeElems, pvAppend_nil, pvLen]
    exact DecSteps_nil (d' + 1) _ _
  | .cons v vs, acc, hval => by
    obtain ⟨hv, hvs⟩ : validVal (.kmsg fs') v = true ∧ validList (.kmsg fs') vs = true := by
      rw [validList] at hval
      simpa using hval
    obtain ⟨w, rfl⟩ : ∃ w, v = .vmsg w := by
      cases v <;> simp_all [validVal]
    have hw : validSlots fs' w = true := by
      rw [validVal] at hv
      exact hv
    rw [encodeElems, encodeElem, pvLen]
    have h1 := DecSteps_field_record (d' + 1) num 2 true (.kmsg fs') fsPre fsTail
      ssPre ssTail (.many acc) (.many (pvSnoc acc (.vmsg w)))
      (encodeVarint (encodeMsg fs' w).length ++ encodeMsg fs' w)
      (by omega) halign hnot
      (fun rest => by
        rw [List.append_assoc]
        exact decodePayload_elem_msg d' fs' acc (encodeMsg fs' w) w rest (hinner w hw))
    have h2 := DecSteps_elems_msg d' num fs' fsPre fsTail ssPre ssTail halign hnot
      hinner vs (pvSnoc acc (.vmsg w)) hvs
    rw [pvAppend_snoc] at h2
    have h3 := DecSteps_trans h1 h2
    rw [Nat.add_comm 1 (pvLen vs)] at h3
    simpa [List.append_assoc] using h3

/-! ### One whole field: the records of encodeField -/

theorem DecSteps_encodeField
    (d num : Nat) (rep : Bool) (k : PKind) (fsPre fsTail : PFields)
    (ssPre ssTail : PSlots) (sT : PSlot)
    (halign : psLen ssPre = pfLen fsPre)
    (hnot : (fieldNums fsPre).contains num = false)
    (hv : validSlot rep k sT = true)
    (hd : kindDepth k ≤ d)
    (hinner : ∀ fs' vs' d2, k = .kmsg fs' → d = d2 + 1 → validSlots fs' vs' = true →
      decodeLoop d2 ((encodeMsg fs' vs').length + 1) fs' (defaultSlots fs')
        (encodeMsg fs' vs') = .ok vs') :
    DecSteps d (pfAppend fsPre (.cons num rep k fsTail))
      (psAppend ssPre (.cons (defaultSlot rep k) ssTail))
      (encodeField num rep k sT)
      (psAppend ssPre (.cons sT ssTail))
      (slotRecords rep k sT) := by
  cases rep with
  | false =>
    cases sT with
    | many vs =>
      simp [validSlot] at hv
    | one v =>
      rw [defaultSlot_single]
      cases k with
      | kint =>
        obtain ⟨n, rfl⟩ : ∃ n, v = .vint n := by
          cases v <;> simp_all [validSlot, validVal]
        rw [defaultVal_int, encodeField, slotRecords]
        by_cases hn : n = 0
        · subst hn
          rw [if_pos rfl, if_pos rfl]
          exact DecSteps_nil d _ _
        · rw [if_neg hn, if_neg hn]
          have h := DecSteps_field_record d num 0 false .kint fsPre fsTail ssPre ssTail
            (.one (.vint 0)) (.one (.vint n)) (encodeVarint n) (by omega) halign hnot
            (fun rest => decodePayload_int d _ n rest)
          rwa [Nat.add_zero] at h
      | kbool =>
        obtain ⟨b, rfl⟩ : ∃ b, v = .vbool b := by
          cases v <;> simp_all [validSlot, validVal]
        rw [defaultVal_bool, encodeField, slotRecords]
        cases b with
        | false =>
          exact DecSteps_nil d _ _
        | true =>
          have h := DecSteps_field_record d num 0 false .kbool fsPre fsTail ssPre ssTail
            (.one (.vbool false)) (.one (.vbool (1 != 0))) (encodeVarint 1) (by omega)
            halign hnot (fun rest => decodePayload_bool d _ 1 rest)
          rw [Nat.add_zero] at h
          simpa using h
      | kenum =>
        obtain ⟨n, rfl⟩ : ∃ n, v = .venum n := by
          cases v <;> simp_all [validSlot, validVal]
        rw [defaultVal_enum, encodeField, slotRecords]
        by_cases hn : n = 0
        · subst hn
          rw [if_pos rfl, if_pos rfl]
          exact DecSteps_nil d _ _
        · rw [if_neg hn, if_neg hn]
          have h := DecSteps_field_record d num 0 false .kenum fsPre fsTail ssPre ssTail
            (.one (.venum 0)) (.one (.venum n)) (encodeVarint n) (by omega) halign hnot
            (fun rest => decodePayload_enum d _ n rest)
          rwa [Nat.add_zero] at h
      | kbytes =>
        obtain ⟨bs, rfl⟩ : ∃ bs, v = .vbytes bs := by
          cases v <;> simp_all [validSlot, validVal]
        rw [defaultVal_bytes, encodeField, slotRecords]
        by_cases hbs : bs.isEmpty
        · rw [if_pos hbs, if_pos hbs]
          obtain rfl : bs = [] := by simpa using hbs
          exact DecSteps_nil d _ _
        · rw [if_neg hbs, if_neg hbs]
          have h := DecSteps_field_record d num 2 false .kbytes fsPre fsTail ssPre ssTail
            (.one (.vbytes [])) (.one (.vbytes bs)) (encodeVarint bs.length ++ bs)
            (by omega) halign hnot
            (fun rest => by
              rw [List.append_assoc]
              exact decodePayload_bytes d _ bs rest)
          simpa [List.append_assoc] using h
      | kmsg fs' =>
        obtain ⟨w, rfl⟩ : ∃ w, v = .vmsg w := by
          cases v <;> simp_all [validSlot, validVal]
        have hw : validSlots fs' w = true := by
          rw [validSlot, validVal] at hv
          exact hv
        rw [kindDepth] at hd
        obtain ⟨d2, rfl⟩ : ∃ d2, d = d2 + 1 := ⟨d - 1, by omega⟩
        rw [encodeField, slotRecords]
        have h := DecSteps_field_record (d2 + 1) num 2 false (.kmsg fs') fsPre fsTail
          ssPre ssTail (.one (defaultVal (.kmsg fs'))) (.one (.vmsg w))
          (encodeVarint (encodeMsg fs' w).length ++ encodeMsg fs' w)
          (by omega) halign hnot
          (fun rest => by
            rw [List.append_assoc]
            exact decodePayload_msg d2 fs' _ (encodeMsg fs' w) w rest
              (hinner fs' w d2 rfl rfl hw))
        simpa [List.append_assoc] using h
  | true =>
    cases sT with
    | one v =>
      simp [validSlot] at hv
    | many vs =>
      rw [defaultSlot_rep]
      cases k with
      | kint =>
        rw [validSlot] at hv
        rw [encodeField, slotRecords]
        by_cases hnil : pvIsNil vs = true
        · rw [if_pos hnil, if_pos hnil]
          obtain rfl := pvIsNil_eq_nil hnil
          exact DecSteps_nil d _ _
        · rw [if_neg hnil, if_neg hnil]
          have h := DecSteps_field_record d num 2 true .kint fsPre fsTail ssPre ssTail
            (.many .nil) (.many (pvAppend .nil vs))
            (encodeVarint (encodeNats (packNats .kint vs)).length ++
              encodeNats (packNats .kint vs))
            (by omega) halign hnot
            (fun rest => by
              rw [List.append_assoc]
              exact decodePayload_packed_int d .nil vs hv rest)
          rw [pvAppend] at h
          simpa [List.append_assoc] using h
      | kbool =>
        rw [validSlot] at hv
        rw [encodeField, slotRecords]
        by_cases hnil : pvIsNil vs = true
        · rw [if_pos hnil, if_pos hnil]
          obtain rfl := pvIsNil_eq_nil hnil
          exact DecSteps_nil d _ _
        · rw [if_neg hnil, if_neg hnil]
          have h := DecSteps_field_record d num 2 true .kbool fsPre fsTail ssPre ssTail
            (.many .nil) (.many (pvAppend .nil vs))
            (encodeVarint (encodeNats (packNats .kbool vs)).length ++
              encodeNats (packNats .kbool vs))
            (by omega) halign hnot
            (fun rest => by
              rw [List.append_assoc]
              exact decodePayload_packed_bool d .nil vs hv rest)
          rw [pvAppend] at h
          simpa [List.append_assoc] using h
      | kenum =>
        rw [validSlot] at hv
        rw [encodeField, slotRecords]
        by_cases hnil : pvIsNil vs = true
        · rw [if_pos hnil, if_pos hnil]
          obtain rfl := pvIsNil_eq_nil hnil
          exact DecSteps_nil d _ _
        · rw [if_neg hnil, if_neg hnil]
          have h := DecSteps_field_record d num 2 true .kenum fsPre fsTail ssPre ssTail
            (.many .nil) (.many (pvAppend .nil vs))
            (encodeVarint (encodeNats (packNats .kenum vs)).length ++
              encodeNats (packNats .kenum vs))
            (by omega) halign hnot
            (fun rest => by
              rw [List.append_assoc]
              exact decodePayload_packed_enum d .nil vs hv rest)
          rw [pvAppend] at h
          simpa [List.append_assoc] using h
      | kbytes =>
        rw [validSlot] at hv
        rw [encodeField, slotRecords]
        have h := DecSteps_elems_bytes d num fsPre fsTail ssPre ssTail halign hnot
          vs .nil hv
        rwa [pvAppend] at h
      | kmsg fs' =>
        rw [validSlot] at hv
        rw [kindDepth] at hd
        obtain ⟨d2, rfl⟩ : ∃ d2, d = d2 + 1 := ⟨d - 1, by omega⟩
        rw [encodeField, slotRecords]
        have h := DecSteps_elems_msg d2 num fs' fsPre fsTail ssPre ssTail halign hnot
          (fun vs' hvs' => hinner fs' vs' d2 rfl rfl hvs') vs .nil hv
        rwa [pvAppend] at h

/-! ### Record budget: one byte per record at least -/

theorem steps_decode {d : Nat} {fs : PFields} {st st' : PSlots} {buf : List Nat} {c : Nat}
    (h : DecSteps d fs st buf st' c) (hc : c ≤ buf.length) :
    decodeLoop d (buf.length + 1) fs st buf = .ok st' := by
  have h2 := h (buf.length + 1 - c) []
  rw [List.append_nil] at h2
  have harith : buf.length + 1 - c + c = buf.length + 1 := by omega
  rw [harith] at h2
  rw [h2, decodeLoop_nil]

theorem pvLen_le_encodeElems (num : Nat) (k : PKind)
    (hk : k = .kbytes ∨ ∃ fs', k = .kmsg fs') :
    ∀ (vs : PValList), validList k vs = true →
      pvLen vs ≤ (encodeElems num k vs).length
  | .nil, _ => by
    rw [encodeElems, pvLen]
    omega
  | .cons v vs, hval => by
    obtain ⟨hv, hvs⟩ : validVal k v = true ∧ validList k vs = true := by
      rw [validList] at hval
      simpa using hval
    rw [encodeElems, pvLen, List.length_append]
    have h1 : 1 ≤ (encodeElem num k v).length := by
      rcases hk with rfl | ⟨fs', rfl⟩
      · obtain ⟨bs, rfl⟩ : ∃ bs, v = .vbytes bs := by
          cases v <;> simp_all [validVal]
        rw [encodeElem]
        have := encodeVarint_length_pos (num * 8 + 2)
        simp [List.length_append]
        omega
      · obtain ⟨w, rfl⟩ : ∃ w, v = .vmsg w := by
          cases v <;> simp_all [validVal]
        rw [encodeElem]
        have := encodeVarint_length_pos (num * 8 + 2)
        simp [List.length_append]
        omega
    have h2 := pvLen_le_encodeElems num k hk vs hvs
    omega

theorem slotRecords_le (num : Nat) (rep : Bool) (k : PKind) (s : PSlot)
    (hv : validSlot rep k s = true) :
    slotRecords rep k s ≤ (encodeField num rep k s).length := by
  cases rep with
  | false =>
    cases s with
    | many vs => simp [validSlot] at hv
    | one v =>
      cases k with
      | kint =>
        obtain ⟨n, rfl⟩ : ∃ n, v = .vint n := by
          cases v <;> simp_all [validSlot, validVal]
        rw [encodeField, slotRecords]
        by_cases hn : n = 0
        · simp [hn]
        · have := encodeVarint_length_pos (num * 8)
          simp [hn, List.length_append]
          omega
      | kbool =>
        obtain ⟨b, rfl⟩ : ∃ b, v = .vbool b := by
          cases v <;> simp_all [validSlot, validVal]
        rw [encodeField, slotRecords]
        cases b with
        | false => simp
        | true =>
          have := encodeVarint_length_pos (num * 8)
          simp [List.length_append]
          omega
      | kenum =>
        obtain ⟨n, rfl⟩ : ∃ n, v = .venum n := by
          cases v <;> simp_all [validSlot, validVal]
        rw [encodeField, slotRecords]
        by_cases hn : n = 0
        · simp [hn]
        · have := encodeVarint_length_pos (num * 8)
          simp [hn, List.length_append]
          omega
      | kbytes =>
        obtain ⟨bs, rfl⟩ : ∃ bs, v = .vbytes bs := by
          cases v <;> simp_all [validSlot, validVal]
        rw [encodeField, slotRecords]
        by_cases hbs : bs.isEmpty
        · simp [hbs]
        · have := encodeVarint_length_pos (num * 8 + 2)
          simp [hbs, List.length_append]
          omega
      | kmsg fs' =>
        obtain ⟨w, rfl⟩ : ∃ w, v = .vmsg w := by
          cases v <;> simp_all [validSlot, validVal]
        rw [encodeField, slotRecords]
        have := encodeVarint_length_pos (num * 8 + 2)
        simp [List.length_append]
        omega
  | true =>
    cases s with
    | one v => simp [validSlot] at hv
    | many vs =>
      rw [validSlot] at hv
      cases k with
      | kint =>
        rw [encodeField, slotRecords]
        by_cases hnil : pvIsNil vs = true
        · simp [hnil]
        · have := encodeVarint_length_pos (num * 8 + 2)
          simp [hnil, List.length_append]
          omega
      | kbool =>
        rw [encodeField, slotRecords]
        by_cases hnil : pvIsNil vs = true
        · simp [hnil]
        · have := encodeVarint_length_pos (num * 8 + 2)
          simp [hnil, List.length_append]
          omega
      | kenum =>
        rw [encodeField, slotRecords]
        by_cases hnil : pvIsNil vs = true
        · simp [hnil]
        · have := encodeVarint_length_pos (num * 8 + 2)
          simp [hnil, List.length_append]
          omega
      | kbytes =>
        rw [encodeField, slotRecords]
        exact pvLen_le_encodeElems num .kbytes (Or.inl rfl) vs hv
      | kmsg fs' =>
        rw [encodeField, slotRecords]
        exact pvLen_le_encodeElems num (.kmsg fs') (Or.inr ⟨fs', rfl⟩) vs hv

theorem msgRecords_le : ∀ (fs : PFields) (ss : PSlots), validSlots fs ss = true →
    msgRecords fs ss ≤ (encodeMsg fs ss).length
  | .nil, ss, _ => by
    rw [msgRecords]
    omega
  | .cons num rep k fsRest, .nil, hval => by simp [validSlots] at hval
  | .cons num rep k fsRest, .cons s ssRest, hval => by
    obtain ⟨hs, hrest⟩ : validSlot rep k s = true ∧ validSlots fsRest ssRest = true := by
      rw [validSlots] at hval
      simpa using hval
    rw [msgRecords, encodeMsg, List.length_append]
    have h1 := slotRecords_le num rep k s hs
    have h2 := msgRecords_le fsRest ssRest hrest
    omega

/-! ### The decoder consumes a whole encoded message -/

theorem msg_steps : ∀ (fsSuf : PFields) (d : Nat) (fsPre : PFields) (ssPre : PSlots)
    (tgt : PSlots),
    psLen ssPre = pfLen fsPre →
    (∀ n ∈ fieldNums fsSuf, n ∉ fieldNums fsPre) →
    wfFields fsSuf = true →
    msgDepth fsSuf ≤ d →
    validSlots fsSuf tgt = true →
    DecSteps d (pfAppend fsPre fsSuf) (psAppend ssPre (defaultSlots fsSuf))
      (encodeMsg fsSuf tgt) (psAppend ssPre tgt) (msgRecords fsSuf tgt)
  | .nil, d, fsPre, ssPre, tgt, _, _, _, _, hval => by
    cases tgt with
    | cons sT tgtRest => simp [validSlots] at hval
    | nil =>
      rw [defaultSlots, encodeMsg, msgRecords]
      exact DecSteps_nil d _ _
  | .cons num rep k fsRest, d, fsPre, ssPre, tgt, halign, hdisj, hwf, hd, hval => by
    cases tgt with
    | nil => simp [validSlots] at hval
    | cons sT tgtRest =>
      obtain ⟨hvs, hvrest⟩ : validSlot rep k sT = true ∧ validSlots fsRest tgtRest = true := by
        rw [validSlots] at hval
        simpa using hval
      have hwf' := hwf
      rw [wfFields] at hwf'
      obtain ⟨⟨⟨⟨hnum1, hnum2⟩, hnotrest⟩, hwk⟩, hwrest⟩ :
          (((1 ≤ num ∧ num < 2 ^ 29) ∧ num ∉ fieldNums fsRest) ∧
            wfKind k = true) ∧ wfFields fsRest = true := by
        simpa using hwf'
      rw [msgDepth] at hd
      have hkd : kindDepth k ≤ d := le_trans (le_max_left _ _) hd
      have hrd : msgDepth fsRest ≤ d := le_trans (le_max_right _ _) hd
      have hnotpre : (fieldNums fsPre).contains num = false := by
        have hmem := hdisj num (by rw [fieldNums]; exact List.mem_cons_self _ _)
        simpa [List.contains_eq_any_beq] using hmem
      have hA := DecSteps_encodeField d num rep k fsPre fsRest ssPre
        (defaultSlots fsRest) sT halign hnotpre hvs hkd
        (fun fs' vs' d2 hkEq hdEq hv' => by
          subst hkEq
          subst hdEq
          rw [wfKind] at hwk
          rw [kindDepth] at hkd
          have hin := msg_steps fs' d2 .nil .nil vs' rfl (by simp [fieldNums]) hwk
            (by omega) hv'
          rw [pfAppend] at hin
          rw [psAppend, psAppend] at hin
          exact steps_decode hin (msgRecords_le fs' vs' hv'))
      have halign' : psLen (psAppend ssPre (.cons sT .nil)) =
          pfLen (pfAppend fsPre (.cons num rep k .nil)) := by
        rw [psLen_append_single, pfLen_append_single, halign]
      have hdisj' : ∀ n ∈ fieldNums fsRest,
          n ∉ fieldNums (pfAppend fsPre (.cons num rep k .nil)) := by
        intro n hn
        rw [fieldNums_append, fieldNums, fieldNums]
        simp only [List.mem_append, List.mem_singleton, List.mem_cons]
        rintro (hmem | hmem | hmem)
        · exact hdisj n (by rw [fieldNums]; exact List.mem_cons_of_mem _ hn) hmem
        · exact hnotrest (hmem ▸ hn)
        · simp at hmem
      have hB := msg_steps fsRest d (pfAppend fsPre (.cons num rep k .nil))
        (psAppend ssPre (.cons sT .nil)) tgtRest halign' hdisj' hwrest hrd hvrest
      rw [pfAppend_cons_assoc, psAppend_cons_assoc, psAppend_cons_assoc] at hB
      have hAB := DecSteps_trans hA hB
      rw [defaultSlots, encodeMsg, msgRecords]
      exact hAB

/-! ## C1: the dynamic codec round-trips every validating value -/

/-- C1: for every well-formed message descriptor (covering scalar, bool,
bytes/string, enum, nested-message and repeated fields) and every value that
validates against it, encoding through the dynamic codec and decoding the
wire bytes with the decoder bound to the same descriptor returns a value
equal in all field values to the original; through the tonic decoder entry
(`DynamicDecoder::decode`) the same holds whenever the encoding is
non-empty (a zero-byte encoding is reported as "no message", see C3). -/
theorem dynamic_codec_roundtrip (fs : PFields) (slots : PSlots)
    (hwf : wfFields fs = true) (hv : validSlots fs slots = true) :
    decodeMessage fs (encodeMsg fs slots) = .ok slots ∧
    (encodeMsg fs slots ≠ [] →
      DynamicDecoder_decode fs (encodeMsg fs slots) = .ok (some slots)) := by
  have hsteps := msg_steps fs (msgDepth fs) .nil .nil slots rfl
    (by simp [fieldNums]) hwf le_rfl hv
  rw [pfAppend, psAppend, psAppend] at hsteps
  have hdec : decodeMessage fs (encodeMsg fs slots) = .ok slots := by
    rw [decodeMessage]
    exact steps_decode hsteps (msgRecords_le fs slots hv)
  refine ⟨hdec, fun hne => ?_⟩
  rw [DynamicDecoder_decode, if_neg (by simpa using hne), hdec]

theorem dynamic_codec_roundtrip_witness :
    wfFields exDesc = true ∧ validSlots exDesc exSlots = true ∧
    decodeMessage exDesc (encodeMsg exDesc exSlots) = .ok exSlots :=
  ⟨by decide, by decide,
    (dynamic_codec_roundtrip exDesc exSlots (by decide) (by decide)).1⟩

/-! ## C3: empty buffer means no message, a non-empty one is one message -/

/-- C3: decoding a zero-byte buffer yields "no message" (`none`), never an
error; decoding a non-empty buffer never yields "no message": it consumes
the whole buffer as one message typed against the bound output descriptor,
returning either a decoded message or a decode error. -/
theorem decoder_empty_buffer (output : PFields) (buf : List Nat) :
    DynamicDecoder_decode output [] = .ok none ∧
    (buf ≠ [] → DynamicDecoder_decode output buf ≠ .ok none) ∧
    (buf ≠ [] →
      (∃ m, DynamicDecoder_decode output buf = .ok (some m)) ∨
      ∃ e, DynamicDecoder_decode output buf = .error e) := by
  refine ⟨rfl, fun hne => ?_, fun hne => ?_⟩ <;>
    rw [DynamicDecoder_decode, if_neg (by simpa using hne)]
  · cases hdm : decodeMessage output buf <;> simp
  · cases hdm : decodeMessage output buf with
    | ok m => exact Or.inl ⟨m, rfl⟩
    | error e => exact Or.inr ⟨_, rfl⟩

theorem decoder_empty_buffer_witness :
    DynamicDecoder_decode exDesc [] = .ok none ∧
    DynamicDecoder_decode exDesc [8, 1] ≠ .ok none :=
  ⟨(decoder_empty_buffer exDesc [8, 1]).1,
   (decoder_empty_buffer exDesc [8, 1]).2.1 (by decide)⟩

end SearchAds
